import Mathlib

set_option maxRecDepth 100000

/-!
Verification of the configuration-resolution engine of this repository.

The engine is embedded shallowly over `Str := List Char`:

* Provider chain (`EnvironmentProvider`, `MapProvider`, `dataProviders`,
  `getValueDefault`) from the provider file;
* the coercion setters (`setValue`; the contents of `initSetters` are folded
  into the kind dispatch of `setValue`, since the registry is keyed by field
  kind and its entries are fixed);
* the placeholder expander `parseDateTimeString` (the regular expression
  `\{\{(\w+\:(?:-|)\d*,(?:-|)\d*,(?:-|)\d*)\}\}` is embedded as the
  deterministic scanner `findMatches`, and `strings.Replace(_,_,_,-1)` as
  `stringsReplaceAll`);
* the structural walker `walkStruct` and `ApplyExternalConfig`;
* the driver `InitCore` (the resolution core of `Init`: seeding the default
  map provider and walking the record at the fixed depth 4; the config-file
  and logging collaborators are outside the engine);
* the package's own record shape (`ConfigurationV`, with the unexported
  embedded struct `buildData` and its field tags).

Wall-clock time (`time.Now()`) is injected as an explicit `Clock` value (a
whole-second instant), as the specification prescribes for testing.
Machine integers are `Nat`/`Int` with explicit range checks and wrap-around
where the Go code has them: the int64 wrap of `time.Duration` products and
sums (`goDuration`), the int64/uint64 wraps of `time.Date`'s epoch-seconds
pipeline (`normGo`, `daysSinceEpochGo`, `dateAbsGo`, `absDateGo`), the
int64 clamp of `strconv.ParseInt` and the float64 overflow bound of
`strconv.ParseFloat`.  The exact (unwrapped) advance functions
`advanceDateSpec`/`advanceTimeSpec` are modelled from the claim's words for
comparison with the engine's arithmetic.
-/

namespace Cfg

/-- Strings are embedded as lists of characters. -/
abbrev Str := List Char

/-- Coerce a Lean string literal to the embedding's string type. -/
def lit (s : String) : Str := s.data

/-- The character `{` (written via its code point to keep literals plain). -/
def lbrace : Char := Char.ofNat 123

/-- The character `}` (written via its code point). -/
def rbrace : Char := Char.ofNat 125

/-- Word characters of the regexp class `\w`: ASCII alphanumerics and `_`. -/
def isWordChar (c : Char) : Bool := c.isAlphanum || c == '_'

/-- Digit value accumulation for a digit string (most significant first). -/
def natOfDigits (s : Str) : Nat := s.foldl (fun a c => a * 10 + (c.toNat - 48)) 0

/-- A nonempty all-digit string parsed to its value, `none` otherwise. -/
def digitsVal (s : Str) : Option Nat :=
  if s ≠ [] ∧ s.all Char.isDigit then some (natOfDigits s) else none

/-- strconv.ParseInt(value, 10, 64): returns (value, ok).  On a syntax error
Go returns 0 with an error; on range overflow it returns the clamped int64
bound with an error.  `ok = false` models a non-nil error. -/
def parseIntGo (s : Str) : Int × Bool :=
  let (neg, digits) :=
    match s with
    | c :: rest =>
      if c = '-' then (true, rest) else if c = '+' then (false, rest) else (false, s)
    | [] => (false, s)
  match digitsVal digits with
  | none => (0, false)
  | some n =>
    if neg then
      if n ≤ 2 ^ 63 then (-(n : Int), true) else (-((2 : Int) ^ 63), false)
    else
      if n ≤ 2 ^ 63 - 1 then ((n : Int), true) else ((2 : Int) ^ 63 - 1, false)

/-- strconv.ParseUint(value, 10, 64): no sign is permitted; on range overflow
the clamped maximum is returned with an error. -/
def parseUintGo (s : Str) : Nat × Bool :=
  match digitsVal s with
  | none => (0, false)
  | some n => if n ≤ 2 ^ 64 - 1 then (n, true) else (2 ^ 64 - 1, false)

/-- strconv.ParseBool: exactly the listed literal forms are accepted. -/
def parseBoolGo (s : Str) : Option Bool :=
  if s = lit "1" ∨ s = lit "t" ∨ s = lit "T" ∨ s = lit "TRUE" ∨ s = lit "true" ∨ s = lit "True"
  then some true
  else if s = lit "0" ∨ s = lit "f" ∨ s = lit "F" ∨ s = lit "FALSE" ∨ s = lit "false" ∨ s = lit "False"
  then some false
  else none

/-- A parsed Go floating-point value.  Finite values keep the exact rational
the input denotes; rounding that exact value to binary64 is not modelled
(no claim depends on the stored bits, only on parse success/failure and on
parsing being deterministic).  ParseFloat's special spellings parse to
infinities and NaN with a nil error. -/
inductive GoFloat where
  | finite (q : Rat)
  | inf (neg : Bool)
  | nan
deriving DecidableEq

/-- ASCII lower-casing, as strconv's case-insensitive special matching. -/
def lowerChar (c : Char) : Char :=
  if 'A' ≤ c ∧ c ≤ 'Z' then Char.ofNat (c.toNat + 32) else c

/-- Case-insensitive string comparison on ASCII letters. -/
def eqFold (a b : Str) : Bool := a.map lowerChar == b.map lowerChar

/-- The special spellings ParseFloat accepts with a nil error: an optionally
signed "inf"/"infinity" and an unsigned "nan", case-insensitive (the sign
branch of strconv's special() falls through only to the infinity cases). -/
def parseFloatSpecial (s : Str) : Option GoFloat :=
  match s with
  | c :: rest =>
    if c = '+' then
      if eqFold rest (lit "inf") || eqFold rest (lit "infinity") then some (.inf false) else none
    else if c = '-' then
      if eqFold rest (lit "inf") || eqFold rest (lit "infinity") then some (.inf true) else none
    else if eqFold s (lit "inf") || eqFold s (lit "infinity") then some (.inf false)
    else if eqFold s (lit "nan") then some GoFloat.nan
    else none
  | [] => none

/-- Scan a maximal run of digits with Go's underscore rule (each underscore
between digits; `prevD` starts true right after a base prefix, where Go also
allows one).  Returns the accumulated value (via `step`, which lets the
exponent saturate exactly as strconv does), the digit count and the rest. -/
def scanDigits (isD : Char → Bool) (dval : Char → Nat) (step : Nat → Nat → Nat) :
    Bool → Nat → Nat → Str → Option (Nat × Nat × Str)
  | _, acc, cnt, [] => some (acc, cnt, [])
  | prevD, acc, cnt, c :: rest =>
    if isD c then scanDigits isD dval step true (step acc (dval c)) (cnt + 1) rest
    else if c = '_' then
      if prevD then
        match rest with
        | d :: _ => if isD d then scanDigits isD dval step false acc cnt rest else none
        | [] => none
      else none
    else some (acc, cnt, c :: rest)

/-- Hexadecimal digit test. -/
def isHexDigit (c : Char) : Bool :=
  c.isDigit || ('a' ≤ c && c ≤ 'f') || ('A' ≤ c && c ≤ 'F')

/-- Hexadecimal digit value. -/
def hexVal (c : Char) : Nat :=
  if c.isDigit then c.toNat - 48
  else if 'a' ≤ c ∧ c ≤ 'f' then c.toNat - 87
  else c.toNat - 55

/-- Decimal digit value. -/
def decVal (c : Char) : Nat := c.toNat - 48

/-- Mantissa accumulation in the given base. -/
def mantStep (base : Nat) : Nat → Nat → Nat := fun a d => a * base + d

/-- Exponent accumulation: strconv saturates the exponent below 100000 by
only extending it while it is < 10000 (the value is then far past any
float64 anyway, so acceptance is unaffected). -/
def expStep : Nat → Nat → Nat := fun a d => if a < 10000 then a * 10 + d else a

/-- The smallest positive rational that ParseFloat(_, 64) reports as a range
error: the rounding midpoint above the largest finite float64 (ties round
away to the even 2^1024). -/
def overflowBound : Rat := mkRat (Int.ofNat ((2 ^ 54 - 1) * 2 ^ 970)) 1

/-- The exact rational mant * base^e, built with core Rat operations. -/
def ratScale (mant : Nat) (base : Nat) (e : Int) : Rat :=
  if 0 ≤ e then mkRat (Int.ofNat (mant * base ^ e.toNat)) 1
  else mkRat (Int.ofNat mant) (base ^ (-e).toNat)

/-- Build the finite result of a decimal parse (value mant / 10^cf * 10^e),
failing with ErrRange exactly when |value| reaches the float64 overflow
midpoint.  Underflow to zero carries no error in strconv. -/
def mkDecFin (neg : Bool) (mant cf : Nat) (e : Int) : Option GoFloat :=
  let q : Rat := ratScale mant 10 (e - (cf : Int))
  if q < overflowBound then some (.finite (if neg then -q else q)) else none

/-- Build the finite result of a hexadecimal parse (value mant / 16^cf * 2^e),
with the same overflow rule. -/
def mkHexFin (neg : Bool) (mant cf : Nat) (e : Int) : Option GoFloat :=
  let q : Rat := ratScale mant 2 (e - 4 * (cf : Int))
  if q < overflowBound then some (.finite (if neg then -q else q)) else none

/-- An optionally signed decimal exponent with at least one digit, consuming
the whole rest of the input. -/
def parseExpPart (s : Str) : Option Int :=
  let (eneg, r) :=
    match s with
    | c :: rest =>
      if c = '-' then (true, rest) else if c = '+' then (false, rest) else (false, s)
    | [] => (false, s)
  match scanDigits Char.isDigit decVal expStep false 0 0 r with
  | some (e, ce, []) => if ce = 0 then none else some (if eneg then -(e : Int) else (e : Int))
  | _ => none

/-- A decimal mantissa with optional fraction and optional e/E exponent. -/
def parseDecFloat (neg : Bool) (s : Str) : Option GoFloat :=
  match scanDigits Char.isDigit decVal (mantStep 10) false 0 0 s with
  | none => none
  | some (mi, ci, r1) =>
    let frac : Option (Nat × Nat × Str) :=
      match r1 with
      | c :: rest => if c = '.' then scanDigits Char.isDigit decVal (mantStep 10) false mi 0 rest
                     else some (mi, 0, r1)
      | [] => some (mi, 0, [])
    match frac with
    | none => none
    | some (m2, cf, r2) =>
      if ci + cf = 0 then none
      else
        match r2 with
        | [] => mkDecFin neg m2 cf 0
        | c :: rest =>
          if c = 'e' ∨ c = 'E' then
            match parseExpPart rest with
            | some e => mkDecFin neg m2 cf e
            | none => none
          else none

/-- A hexadecimal mantissa with optional fraction and the mandatory p/P
exponent. -/
def parseHexFloat (neg : Bool) (s : Str) : Option GoFloat :=
  match scanDigits isHexDigit hexVal (mantStep 16) true 0 0 s with
  | none => none
  | some (mi, ci, r1) =>
    let frac : Option (Nat × Nat × Str) :=
      match r1 with
      | c :: rest => if c = '.' then scanDigits isHexDigit hexVal (mantStep 16) false mi 0 rest
                     else some (mi, 0, r1)
      | [] => some (mi, 0, [])
    match frac with
    | none => none
    | some (m2, cf, r2) =>
      if ci + cf = 0 then none
      else
        match r2 with
        | c :: rest =>
          if c = 'p' ∨ c = 'P' then
            match parseExpPart rest with
            | some e => mkHexFin neg m2 cf e
            | none => none
          else none
        | [] => none

/-- strconv.ParseFloat(value, 64): special spellings; otherwise an optional
sign, then a decimal or (after a 0x/0X prefix) hexadecimal mantissa with
optional fraction, exponent rules and the digits-and-underscores syntax of
Go literals; the whole input must be consumed.  `none` models a non-nil
error: a syntax error, or the range error of an overflowing value. -/
def parseFloatGo (s : Str) : Option GoFloat :=
  match parseFloatSpecial s with
  | some g => some g
  | none =>
    let (neg, s1) :=
      match s with
      | c :: rest =>
        if c = '-' then (true, rest) else if c = '+' then (false, rest) else (false, s)
      | [] => (false, s)
    match s1 with
    | c0 :: c1 :: rest2 =>
      if c0 = '0' ∧ (c1 = 'x' ∨ c1 = 'X') then parseHexFloat neg rest2
      else parseDecFloat neg s1
    | _ => parseDecFloat neg s1

/-- reflect.Value.SetInt stores an int64 into a field of width `w` bits by
two's-complement truncation. -/
def wrapSigned (w : Nat) (v : Int) : Int :=
  let m : Int := 2 ^ w
  let r := v.emod m
  if r < 2 ^ (w - 1) then r else r - m

/-- reflect.Value.SetUint truncates to the field's width `w`. -/
def wrapUnsigned (w : Nat) (n : Nat) : Nat := n % 2 ^ w

/-- The wall clock injected in place of time.Now(): a valid civil date and
time of day, at a whole second (the injected instant's sub-second part is
zero). -/
structure Clock where
  year : Int
  month : Int
  day : Int
  hour : Int
  minute : Int
  second : Int

/-- Go's month normalization in time.Date: fold an arbitrary month number
into year and month with month in 1..12. -/
def normYM (y m : Int) : Int × Int :=
  let mm := m - 1
  (y + mm.ediv 12, mm.emod 12 + 1)

/-- Days since 1970-01-01 of a civil date with normalized month (the
proleptic Gregorian calendar, as Go's time package computes it); the day
component may be out of range and is folded into the count. -/
def daysFromCivil (y m d : Int) : Int :=
  let y2 := if m ≤ 2 then y - 1 else y
  let era := y2.ediv 400
  let yoe := y2 - era * 400
  let mp := (m + 9).emod 12
  let doy := (153 * mp + 2).ediv 5 + d - 1
  let doe := yoe * 365 + yoe.ediv 4 - yoe.ediv 100 + doy
  era * 146097 + doe - 719468

/-- Inverse of `daysFromCivil`: the normalized civil date of a day count. -/
def civilFromDays (z : Int) : Int × Int × Int :=
  let z2 := z + 719468
  let era := z2.ediv 146097
  let doe := z2 - era * 146097
  let yoe := (doe - doe.ediv 1460 + doe.ediv 36524 - doe.ediv 146096).ediv 365
  let y := yoe + era * 400
  let doy := doe - (365 * yoe + yoe.ediv 4 - yoe.ediv 100)
  let mp := (5 * doy + 2).ediv 153
  let d := doy - (153 * mp + 2).ediv 5 + 1
  let m := if mp < 10 then mp + 3 else mp - 9
  (if m ≤ 2 then y + 1 else y, m, d)

/-- Modelled from the claim's words: the current date advanced by the given
years, months and days — exact civil-calendar arithmetic with the
documented month normalization, for comparison with the engine's
`addDate`. -/
def advanceDateSpec (c : Clock) (ys ms ds : Int) : Int × Int × Int :=
  let ym := normYM (c.year + ys) (c.month + ms)
  civilFromDays (daysFromCivil ym.1 ym.2 1 + (c.day + ds - 1))

/-- Two's-complement int64 wrap, as each Go int and time.Duration operation
below. -/
def wrap64 (v : Int) : Int := wrapSigned 64 v

/-- A Go int64 value reinterpreted as uint64 (kept as a Nat below 2^64). -/
def wrapU64 (v : Int) : Nat := (v.emod (2 ^ 64)).toNat

/-- A uint64 value reinterpreted as int64. -/
def toSigned64 (n : Nat) : Int :=
  if (n : Int) < 2 ^ 63 then (n : Int) else (n : Int) - 2 ^ 64

/-- Go's norm helper in time.Date, with the int64 wrap of each operation:
fold `lo` into `hi` so that `lo` lands in [0, base).  The divisions act on
non-negative operands, where Go's truncated division agrees with `ediv`. -/
def normGo (hi lo base : Int) : Int × Int :=
  let (hi1, lo1) :=
    if lo < 0 then
      let n := (wrap64 (wrap64 (-lo) - 1)).ediv base + 1
      (wrap64 (hi - n), wrap64 (lo + wrap64 (n * base)))
    else (hi, lo)
  if base ≤ lo1 then
    let n := lo1.ediv base
    (wrap64 (hi1 + n), lo1 - n * base)
  else (hi1, lo1)

/-- isLeap of Go's time package (Go's truncated `%` and `emod` agree on
comparisons with zero). -/
def isLeapGo (y : Int) : Bool :=
  y.emod 4 == 0 && (y.emod 100 != 0 || y.emod 400 == 0)

/-- Go's daysBefore array: cumulative days before each month of a non-leap
year, with one extra entry for the year total. -/
def daysBeforeTable : List Nat :=
  [0, 31, 59, 90, 120, 151, 181, 212, 243, 273, 304, 334, 365]

/-- daysSinceEpoch of time.Date: days from January 1 of the absolute epoch
year -292277022399 to January 1 of `year`, by 400/100/4-year cycles in
wrapping uint64 arithmetic. -/
def daysSinceEpochGo (year : Int) : Nat :=
  let M := 2 ^ 64
  let y0 := wrapU64 (year + 292277022399)
  let n400 := y0 / 400
  let y1 := y0 - 400 * n400
  let d1 := 146097 * n400 % M
  let n100 := y1 / 100
  let y2 := y1 - 100 * n100
  let d2 := (d1 + 36524 * n100) % M
  let n4 := y2 / 4
  let y3 := y2 - 4 * n4
  let d3 := (d2 + 1461 * n4) % M
  (d3 + 365 * y3) % M

/-- The absolute-seconds value time.Date computes for the given (already
int64-wrapped) year, month and day plus a clock's seconds of day: month
normalization, epoch days, the month table with the leap-day shift, and
the uint64 multiply that Format decodes again.  The internal/absolute
epoch conversion constants applied by time.Date and undone by Time.abs
cancel exactly and are omitted. -/
def dateAbsGo (year0 month0 day0 : Int) (secs : Nat) : Nat :=
  let M := 2 ^ 64
  let ym := normGo year0 (wrap64 (month0 - 1)) 12
  let y1 := ym.1
  let month := ym.2 + 1
  let d0 := daysSinceEpochGo y1
  let d1 := (d0 + daysBeforeTable.getD (month - 1).toNat 0) % M
  let d2 := if isLeapGo y1 ∧ 3 ≤ month then (d1 + 1) % M else d1
  let d3 := (d2 + wrapU64 (day0 - 1)) % M
  (d3 * 86400 % M + secs) % M

/-- absDate of Go's time package: decode an absolute-seconds value into the
civil date Format prints — 400/100/4/1-year cycles with the `n - n/4`
last-cycle correction, then the month/day split over the daysBefore table
with the leap-day special case. -/
def absDateGo (abs : Nat) : Int × Int × Int :=
  let d0 := abs / 86400
  let n400 := d0 / 146097
  let y0 := 400 * n400
  let r1 := d0 - 146097 * n400
  let c1 := r1 / 36524
  let n100 := c1 - c1 / 4
  let y1 := y0 + 100 * n100
  let r2 := r1 - 36524 * n100
  let n4 := r2 / 1461
  let y2 := y1 + 4 * n4
  let r3 := r2 - 1461 * n4
  let c2 := r3 / 365
  let n1 := c2 - c2 / 4
  let y3 := y2 + n1
  let yday := r3 - 365 * n1
  let year := wrap64 (toSigned64 y3 - 292277022399)
  if isLeapGo year ∧ yday = 59 then (year, 2, 29)
  else
    let day1 := if isLeapGo year ∧ 59 < yday then yday - 1 else yday
    let m0 := day1 / 31
    let endd := daysBeforeTable.getD (m0 + 1) 0
    let mb := if endd ≤ day1 then (m0 + 1, endd) else (m0, daysBeforeTable.getD m0 0)
    (year, (mb.1 : Int) + 1, (day1 : Int) - (mb.2 : Int) + 1)

/-- time.Time.AddDate(years, months, days) on the clock, followed by reading
the civil date back the way Format does.  Each Go int addition wraps at
int64 and the epoch-seconds computation wraps at uint64 — visible only for
astronomically large offsets; for ordinary offsets this is exactly the
documented calendar normalization (compare `advanceDateSpec`). -/
def addDate (c : Clock) (ys ms ds : Int) : Int × Int × Int :=
  let secs := (c.hour * 3600 + c.minute * 60 + c.second).toNat
  absDateGo (dateAbsGo (wrap64 (c.year + ys)) (wrap64 (c.month + ms)) (wrap64 (c.day + ds)) secs)

/-- The decimal digit characters. -/
def digitChar : Nat → Char
  | 0 => '0'
  | 1 => '1'
  | 2 => '2'
  | 3 => '3'
  | 4 => '4'
  | 5 => '5'
  | 6 => '6'
  | 7 => '7'
  | 8 => '8'
  | 9 => '9'
  | _ => '0'

/-- Decimal digits, most significant first; the fuel argument only bounds
the recursion depth (one step per digit) and is supplied generously. -/
def natDigitsAux : Nat → Nat → Str
  | 0, _ => []
  | fuel + 1, n =>
    if n < 10 then [digitChar n]
    else natDigitsAux fuel (n / 10) ++ [digitChar (n % 10)]

/-- Decimal digits of a natural number, most significant first. -/
def natDigitsGo (n : Nat) : Str := natDigitsAux (n + 1) n

/-- Zero-padding to a width, as Go's time formatting pads numbers. -/
def padNat (width n : Nat) : Str :=
  let d := natDigitsGo n
  List.replicate (width - d.length) '0' ++ d

/-- Signed zero-padded formatting (sign first, as Go's appendInt). -/
def padIntSigned (width : Nat) (v : Int) : Str :=
  if v < 0 then '-' :: padNat width v.natAbs else padNat width v.natAbs

/-- The time layout `2006-01-02` applied to a civil date. -/
def formatDate (y m d : Int) : Str :=
  padIntSigned 4 y ++ '-' :: (padNat 2 m.toNat ++ '-' :: padNat 2 d.toNat)

/-- `formatDate` on the triple produced by `addDate`. -/
def formatDateTriple (t : Int × Int × Int) : Str := formatDate t.1 t.2.1 t.2.2

/-- The int64-nanosecond time.Duration the time tokens build:
`Duration(H)*Hour + Duration(M)*Minute + Duration(S)*Second`, each
multiplication and addition wrapping at int64. -/
def goDuration (hs ms ss : Int) : Int :=
  let h := wrap64 (hs * 3600000000000)
  let m := wrap64 (ms * 60000000000)
  let s := wrap64 (ss * 1000000000)
  wrap64 (wrap64 (h + m) + s)

/-- time.Now().Add(the token's Duration) rendered with layout `15:04:05`:
Time.Add shifts the clock by the duration's whole seconds (floor division,
via Add's nanosecond borrow, exact for the whole-second clock), and the
layout prints the resulting time of day. -/
def formatTimeAdd (c : Clock) (hs ms ss : Int) : Str :=
  let t := ((c.hour * 3600 + c.minute * 60 + c.second) + (goDuration hs ms ss).fdiv 1000000000).emod 86400
  padNat 2 (t.ediv 3600).toNat ++ ':' :: (padNat 2 ((t.emod 3600).ediv 60).toNat ++ ':' :: padNat 2 (t.emod 60).toNat)

/-- Modelled from the claim's words: the current time advanced by H hours,
M minutes and S seconds, formatted HH:MM:SS — exact arithmetic, for
comparison with the engine's `formatTimeAdd`. -/
def advanceTimeSpec (c : Clock) (hs ms ss : Int) : Str :=
  let t := ((c.hour * 3600 + c.minute * 60 + c.second) + (hs * 3600 + ms * 60 + ss)).emod 86400
  padNat 2 (t.ediv 3600).toNat ++ ':' :: (padNat 2 ((t.emod 3600).ediv 60).toNat ++ ':' :: padNat 2 (t.emod 60).toNat)

/-- One offset segment of the pattern, `(?:-|)\d*`: an optional minus sign
followed by a maximal (possibly empty) run of digits.  Returns the consumed
segment and the rest of the input; the preference for the minus branch is
equivalent to the regexp's leftmost-first alternation because a consumed
`-` can never be re-matched by `\d*` or the following literal. -/
def matchSeg (s : Str) : Str × Str :=
  match s with
  | c :: rest =>
    if c = '-' then ('-' :: rest.takeWhile Char.isDigit, rest.dropWhile Char.isDigit)
    else (s.takeWhile Char.isDigit, s.dropWhile Char.isDigit)
  | [] => ([], [])

/-- The capture group `\w+\:(?:-|)\d*,(?:-|)\d*,(?:-|)\d*` followed by the
closing `\}\}`, matched at the current position: returns the group text and
the input remaining after the braces.  Each sub-pattern here is
deterministic (maximal-munch followed by a literal outside its class), so
`matchInner` is the regexp's unique anchored match. -/
def expectChar (ch : Char) : Str → Option Str
  | c :: rest => if c = ch then some rest else none
  | [] => none

/-- See the comment on `expectChar`: the anchored match of the capture group
followed by the closing braces. -/
def matchInner (s : Str) : Option (Str × Str) :=
  if s.takeWhile isWordChar = [] then none
  else
    (expectChar ':' (s.dropWhile isWordChar)).bind fun r1 =>
    (expectChar ',' (matchSeg r1).2).bind fun r2 =>
    (expectChar ',' (matchSeg r2).2).bind fun r3 =>
    (expectChar rbrace (matchSeg r3).2).bind fun r4 =>
    (expectChar rbrace r4).bind fun _r5 =>
    some (s.takeWhile isWordChar
        ++ ':' :: ((matchSeg r1).1 ++ ',' :: ((matchSeg r2).1 ++ ',' :: (matchSeg r3).1)),
      _r5)

/-- Fuelled scanner for `regexp.FindAllStringSubmatch(pattern, data, -1)`:
leftmost non-overlapping matches, advancing one character on failure and
past the match on success, returning (full match, capture group) pairs.
The fuel only bounds recursion; `findMatches` supplies `length data`,
which each step strictly consumes. -/
def findMatchesF : Nat → Str → List (Str × Str)
  | 0, _ => []
  | _ + 1, [] => []
  | fuel + 1, c :: rest =>
    if c = lbrace then
      match rest with
      | c2 :: rest2 =>
        if c2 = lbrace then
          match matchInner rest2 with
          | some (inner, rest3) =>
            (lbrace :: lbrace :: (inner ++ [rbrace, rbrace]), inner) :: findMatchesF fuel rest3
          | none => findMatchesF fuel rest
        else findMatchesF fuel rest
      | [] => []
    else findMatchesF fuel rest

/-- All matches of the placeholder pattern in the data. -/
def findMatches (s : Str) : List (Str × Str) := findMatchesF s.length s

/-- Boolean prefix test (the test used by strings.Replace to locate
occurrences). -/
def isPrefixOfB : Str → Str → Bool
  | [], _ => true
  | _ :: _, [] => false
  | a :: as, b :: bs => if a = b then isPrefixOfB as bs else false

/-- strings.Replace with a nonempty pattern `p :: ps`, fuelled: replace
every non-overlapping occurrence, scanning left to right.  Each step
consumes at least one character, so fuel `length s` is always enough. -/
def replaceAllF (p : Char) (ps repl : Str) : Nat → Str → Str
  | 0, s => s
  | _ + 1, [] => []
  | fuel + 1, c :: rest =>
    if isPrefixOfB (p :: ps) (c :: rest) then
      repl ++ replaceAllF p ps repl fuel (rest.drop ps.length)
    else c :: replaceAllF p ps repl fuel rest

/-- strings.Replace with a nonempty pattern. -/
def replaceAllNE (p : Char) (ps repl s : Str) : Str := replaceAllF p ps repl s.length s

/-- strings.Replace(s, old, new, -1): all occurrences (the empty-pattern
case never arises from a regexp match and is the identity here). -/
def stringsReplaceAll (s old new : Str) : Str :=
  match old with
  | [] => s
  | p :: ps => replaceAllNE p ps new s

/-- strings.Split with a single-character separator. -/
def goSplit (sep : Char) : Str → List Str
  | [] => [[]]
  | c :: rest =>
    if c = sep then [] :: goSplit sep rest
    else
      match goSplit sep rest with
      | h :: t => (c :: h) :: t
      | [] => [[c]]

/-- The body of the expander's match loop: split the capture group into the
unit tag and its three comma-separated offsets, parse the offsets with
strconv.ParseInt discarding the error (so a malformed or empty segment
contributes 0, and an out-of-range one its clamped bound), and replace every
occurrence of a `date`/`time` match with the formatted shifted date or time.
Unrecognized unit tags leave the data unchanged. -/
def applyMatch (now : Clock) (d : Str) (m : Str × Str) : Str :=
  match goSplit ':' m.2 with
  | [t0, t1] =>
    match goSplit ',' t1 with
    | [a, b, c] =>
      let v0 := (parseIntGo a).1
      let v1 := (parseIntGo b).1
      let v2 := (parseIntGo c).1
      if t0 = lit "date" then
        stringsReplaceAll d m.1 (formatDateTriple (addDate now v0 v1 v2))
      else if t0 = lit "time" then
        stringsReplaceAll d m.1 (formatTimeAdd now v0 v1 v2)
      else d
    | _ => d
  | _ => d

/-- The placeholder expander: find every `{{...}}` match and process each in
order with the match loop body. -/
def parseDateTimeString (now : Clock) (data : Str) : Str :=
  (findMatches data).foldl (applyMatch now) data

/-- A key/value provider's Get: `none` models a non-nil error, `some v` a
returned value (possibly empty, meaning "not set"). -/
abbrev KVProvider := Str → Option Str

/-- EnvironmentProvider.Get: os.Getenv never errors and yields "" when the
variable is unset; the process environment is the function `env`. -/
def EnvironmentProviderGet (env : Str → Str) : KVProvider := fun key => some (env key)

/-- MapProvider.Get: a map lookup never errors and yields "" for a missing
key; the map contents are the function `store`. -/
def MapProviderGet (store : Str → Str) : KVProvider := fun key => some (store key)

/-- MapProvider.Set: overwrite one key. -/
def mapSet (store : Str → Str) (key value : Str) : Str → Str :=
  fun k => if k = key then value else store k

/-- The map with no entries. -/
def emptyStore : Str → Str := fun _ => []

/-- The default provider chain, in decreasing order of priority: the
environment provider, then the built-in DefaultMapProvider with contents
`store`. -/
def dataProviders (env store : Str → Str) : List KVProvider :=
  [EnvironmentProviderGet env, MapProviderGet store]

/-- getValueDefault: first provider whose Get succeeds with a non-empty
value wins; otherwise the caller's default is returned. -/
def getValueDefault (provs : List KVProvider) (key envDefault : Str) : Str :=
  match provs with
  | [] => envDefault
  | p :: rest =>
    match p key with
    | some v => if v ≠ [] then v else getValueDefault rest key envDefault
    | none => getValueDefault rest key envDefault

/-- Per-field metadata: the struct field's name (its first character decides
Go exportedness) and its `env` and `default` tags. -/
structure FieldInfo where
  name : Str
  envTag : Str
  defaultTag : Str

/-- A field's value together with its reflect kind: booleans, signed and
unsigned integers of width `w` (Go's `int`/`uint` are 64-bit here),
floating-point fields (parsed values kept as `GoFloat`), strings, struct
values (with `named = true` when the struct type has a nonempty PkgPath,
i.e. is a defined type), and `vOther` for kinds with no registered setter. -/
inductive FieldVal where
  | vBool (b : Bool)
  | vInt (w : Nat) (v : Int)
  | vUint (w : Nat) (v : Nat)
  | vFloat (v : GoFloat)
  | vStr (s : Str)
  | vStruct (named : Bool) (fields : List (FieldInfo × FieldVal))
  | vOther

/-- Go exportedness of a field name: first character upper-case. -/
def isExported (name : Str) : Bool :=
  match name with
  | c :: _ => c.isUpper
  | [] => false

/-- isStruct: the field's type has a nonempty PkgPath and struct kind. -/
def isStructF (fv : FieldVal) : Bool :=
  match fv with
  | .vStruct named _ => named
  | _ => false

/-- setValue with the setter registry of initSetters folded in: if the field
is not settable, return unchanged; otherwise dispatch on the field's kind.
Parse failures leave the field unchanged; kinds without a registered setter
(struct values and `vOther`) log a warning and leave it unchanged; string
setters first run the placeholder expander. -/
def setValue (now : Clock) (canSet : Bool) (field : FieldVal) (value : Str) : FieldVal :=
  if !canSet then field
  else
    match field with
    | .vBool _ =>
      match parseBoolGo value with
      | some b => .vBool b
      | none => field
    | .vInt w _ =>
      let r := parseIntGo value
      if r.2 then .vInt w (wrapSigned w r.1) else field
    | .vUint w _ =>
      let r := parseUintGo value
      if r.2 then .vUint w (wrapUnsigned w r.1) else field
    | .vFloat _ =>
      match parseFloatGo value with
      | some q => .vFloat q
      | none => field
    | .vStr _ => .vStr (parseDateTimeString now value)
    | .vStruct _ _ => field
    | .vOther => field

/-- walkStruct: visit each field of a struct value.  `readOnly` tracks
whether the value was reached through an unexported field (in which case
reflect marks it and everything below read-only, so CanSet fails).  A field
with an empty `env` tag that is a named nested struct is recursed into when
maxDepth > 0, with maxDepth - 1; a field with a nonempty tag is resolved
through the provider chain with its `default` tag as fallback and, when the
resolved value is nonempty, applied with setValue.
The source guard `maxDepth > 0 && isStruct(fv)` is split into the two
depth cases so the recursion is structural on maxDepth; the loop body is
otherwise identical in both. -/
def walkStruct (provs : List KVProvider) (now : Clock) : Bool → Nat → FieldVal → FieldVal
  | readOnly, 0, .vStruct named fields =>
    .vStruct named (fields.map (fun f =>
      let fvRO := readOnly || !isExported f.1.name
      if f.1.envTag = [] then f
      else
        let envValue := getValueDefault provs f.1.envTag f.1.defaultTag
        if envValue ≠ [] then (f.1, setValue now (!fvRO) f.2 envValue) else f))
  | readOnly, md + 1, .vStruct named fields =>
    .vStruct named (fields.map (fun f =>
      let fvRO := readOnly || !isExported f.1.name
      if f.1.envTag = [] then
        match isStructF f.2 with
        | true => (f.1, walkStruct provs now fvRO md f.2)
        | false => f
      else
        let envValue := getValueDefault provs f.1.envTag f.1.defaultTag
        if envValue ≠ [] then (f.1, setValue now (!fvRO) f.2 envValue) else f))
  | _, _, v => v

/-- The loop body of walkStruct for one field, at the walk's current
read-only state and remaining depth. -/
def walkFieldStep (provs : List KVProvider) (now : Clock) (readOnly : Bool) (maxDepth : Nat)
    (f : FieldInfo × FieldVal) : FieldInfo × FieldVal :=
  let fvRO := readOnly || !isExported f.1.name
  if f.1.envTag = [] then
    match maxDepth with
    | 0 => f
    | md + 1 =>
      match isStructF f.2 with
      | true => (f.1, walkStruct provs now fvRO md f.2)
      | false => f
  else
    let envValue := getValueDefault provs f.1.envTag f.1.defaultTag
    if envValue ≠ [] then (f.1, setValue now (!fvRO) f.2 envValue) else f

/-- ApplyExternalConfig: walk the record behind the pointer (addressable, so
not read-only) and return a nil error unconditionally. -/
def ApplyExternalConfig (provs : List KVProvider) (now : Clock) (s : FieldVal) (maxDepth : Nat) :
    Except Str FieldVal :=
  Except.ok (walkStruct provs now false maxDepth s)

/-- The resolution core of Init: seed DefaultMapProvider with the
programmatic defaults collected by Defaults(Set(...)...), then apply the
external configuration to the default record at the engine's fixed depth 4.
(Reading ./config.json and logging are collaborators outside the engine.) -/
def InitCore (env : Str → Str) (defaults : List (Str × Str)) (store0 : Str → Str)
    (defaultConfiguration : FieldVal) (now : Clock) : FieldVal :=
  let store := defaults.foldl (fun st kv => mapSet st kv.1 kv.2) store0
  walkStruct (dataProviders env store) now false 4 defaultConfiguration

/-- The package's buildData struct: four exported string fields with their
env tags, and the `default:"1.3"` tag on Version. -/
def buildDataV (ver com br bn : Str) : FieldVal :=
  .vStruct true
    [(⟨lit "Version", lit "VERSION", lit "1.3"⟩, .vStr ver),
     (⟨lit "Commit", lit "COMMIT", []⟩, .vStr com),
     (⟨lit "Branch", lit "BRANCH", []⟩, .vStr br),
     (⟨lit "BuildNumber", lit "BUILD_NUMBER", []⟩, .vStr bn)]

/-- The package's Build struct: a single unexported embedded field of the
named struct type buildData. -/
def BuildV (ver com br bn : Str) : FieldVal :=
  .vStruct true [(⟨lit "buildData", [], []⟩, buildDataV ver com br bn)]

/-- The package's Configuration struct. -/
def ConfigurationV (ll ver com br bn : Str) : FieldVal :=
  .vStruct true
    [(⟨lit "LogLevel", lit "LOG_LEVEL", []⟩, .vStr ll),
     (⟨lit "Build", [], []⟩, BuildV ver com br bn)]

/-- The package's defaultConfiguration value (before any config file). -/
def defaultConfigurationV : FieldVal :=
  ConfigurationV (lit "INFO") (lit "1.0.0") [] [] []

/-- Fixed clock for Scenario E: 2024-03-15. -/
def clockE : Clock := ⟨2024, 3, 15, 0, 0, 0⟩

/-- Project the four Build fields (Version, Commit, Branch, BuildNumber) out
of a Configuration-shaped record. -/
def buildFieldsOf (v : FieldVal) : Option (Str × Str × Str × Str) :=
  match v with
  | .vStruct _ [_, (_, .vStruct _ [(_, .vStruct _ [(_, .vStr a), (_, .vStr b), (_, .vStr c), (_, .vStr d)])])] =>
    some (a, b, c, d)
  | _ => none

/-- A string free of brace characters. -/
def braceFreeB (s : Str) : Bool := s.all (fun c => !(c = lbrace) && !(c = rbrace))

/-- A decomposition of a data string into literal pieces and placeholder
tokens, used to state what the expander does to every well-formed token. -/
inductive Chunk where
  | lit (s : Str)
  | tok (unit s1 s2 s3 : Str)

/-- The capture-group text of a token. -/
def tokInner (u a b c : Str) : Str := u ++ ':' :: (a ++ ',' :: (b ++ ',' :: c))

/-- The source text of a chunk. -/
def renderChunk : Chunk → Str
  | .lit s => s
  | .tok u a b c => lbrace :: lbrace :: (tokInner u a b c ++ [rbrace, rbrace])

/-- A well-formed offset segment: optional minus sign, then digits. -/
def segOK : Str → Bool
  | [] => true
  | c :: rest => if c = '-' then rest.all Char.isDigit else (c :: rest).all Char.isDigit

/-- Chunk well-formedness: literal pieces contain no braces; tokens have a
nonempty word-character unit tag and three well-formed segments. -/
def chunkOK : Chunk → Bool
  | .lit s => braceFreeB s
  | .tok u a b c => !u.isEmpty && u.all isWordChar && segOK a && segOK b && segOK c

/-- What the specification says a single token resolves to: `date` tokens
become the clock's date shifted by the three parsed offsets, `time` tokens
the clock's time shifted by them, and tokens with any other unit tag stay
verbatim. -/
def expandChunk (now : Clock) : Chunk → Str
  | .lit s => s
  | .tok u a b c =>
    if u = lit "date" then
      formatDateTriple (addDate now (parseIntGo a).1 (parseIntGo b).1 (parseIntGo c).1)
    else if u = lit "time" then
      formatTimeAdd now (parseIntGo a).1 (parseIntGo b).1 (parseIntGo c).1
    else renderChunk (.tok u a b c)

/-- The rendered texts of a chunk list's tokens, in order. -/
def tokTexts (chunks : List Chunk) : List Str :=
  chunks.filterMap (fun c =>
    match c with
    | .tok u a b s3 => some (renderChunk (.tok u a b s3))
    | .lit _ => none)

/-- The (full match, capture group) pairs contributed by a chunk list's
tokens, in order: what the scanner finds on the rendered string. -/
def tokMatches (chunks : List Chunk) : List (Str × Str) :=
  chunks.filterMap (fun ch =>
    match ch with
    | .tok u a b c => some (renderChunk (.tok u a b c), tokInner u a b c)
    | .lit _ => none)

/-- Pairwise distinctness of a list of strings. -/
def distinctB : List Str → Bool
  | [] => true
  | x :: xs => xs.all (fun y => !(x = y)) && distinctB xs

/-- A key-K environment used to exercise the depth boundary. -/
def envK : Str → Str := fun k => if k = lit "K" then lit "new" else []

/-- A chain of nested records of the given extra depth, each level holding
one bound string field (key K, initial value "old") and one unbound nested
record. -/
def depthChain : Nat → FieldVal
  | 0 => .vStruct true [(⟨lit "S", lit "K", []⟩, .vStr (lit "old"))]
  | n + 1 =>
    .vStruct true
      [(⟨lit "S", lit "K", []⟩, .vStr (lit "old")),
       (⟨lit "C", [], []⟩, depthChain n)]

/-- The bound string values of a `depthChain`-shaped record, outermost
first (the first argument is recursion fuel). -/
def chainValuesF : Nat → FieldVal → List Str
  | 0, _ => []
  | n + 1, v =>
    match v with
    | .vStruct _ [(_, .vStr s)] => [s]
    | .vStruct _ [(_, .vStr s), (_, child)] => s :: chainValuesF n child
    | _ => []

/-! ## General lemmas about the walker -/

/-- The walker maps its loop body over the struct's fields. -/
theorem walkStruct_fields (provs : List KVProvider) (now : Clock) (ro : Bool) (md : Nat)
    (named : Bool) (fs : List (FieldInfo × FieldVal)) :
    walkStruct provs now ro md (.vStruct named fs)
      = .vStruct named (fs.map (walkFieldStep provs now ro md)) := by
  cases md <;> rfl

/-- A field that is not settable is returned unchanged by setValue. -/
theorem setValue_not_canSet (now : Clock) (fv : FieldVal) (v : Str) :
    setValue now false fv v = fv := rfl

/-- Applying a setter twice with the same raw value is the same as applying
it once: the result of a setter never depends on the field's prior value
except by leaving it unchanged on a parse failure. -/
theorem setValue_idem (now : Clock) (c : Bool) (fv : FieldVal) (v : Str) :
    setValue now c (setValue now c fv v) v = setValue now c fv v := by
  cases c
  · rfl
  · cases fv with
    | vBool b => cases h : parseBoolGo v <;> simp [setValue, h]
    | vInt w n => cases h : (parseIntGo v).2 <;> simp [setValue, h]
    | vUint w n => cases h : (parseUintGo v).2 <;> simp [setValue, h]
    | vFloat q => cases h : parseFloatGo v <;> simp [setValue, h]
    | vStr s => simp [setValue]
    | vStruct named fs => rfl
    | vOther => rfl

/-- Walking preserves the head constructor, in particular isStruct. -/
theorem isStructF_walkStruct (provs : List KVProvider) (now : Clock) (ro : Bool) (md : Nat)
    (v : FieldVal) : isStructF (walkStruct provs now ro md v) = isStructF v := by
  cases v <;> cases md <;> rfl

/-- The loop body is idempotent on a field, given idempotence of the walk at
all smaller depths. -/
theorem walkFieldStep_idem (provs : List KVProvider) (now : Clock) (ro : Bool) (md : Nat)
    (f : FieldInfo × FieldVal)
    (hrec : ∀ md2, md2 < md → ∀ ro2 v,
      walkStruct provs now ro2 md2 (walkStruct provs now ro2 md2 v)
        = walkStruct provs now ro2 md2 v) :
    walkFieldStep provs now ro md (walkFieldStep provs now ro md f)
      = walkFieldStep provs now ro md f := by
  by_cases htag : f.1.envTag = []
  · cases md with
    | zero => simp [walkFieldStep, htag]
    | succ md2 =>
      cases hs : isStructF f.2 with
      | false => simp [walkFieldStep, htag, hs]
      | true =>
        simp only [walkFieldStep, htag, if_pos, hs, isStructF_walkStruct]
        exact congrArg _ (hrec md2 (Nat.lt_succ_self md2) _ f.2)
  · by_cases hev : getValueDefault provs f.1.envTag f.1.defaultTag ≠ []
    · simp [walkFieldStep, htag, hev, setValue_idem]
    · simp [walkFieldStep, htag, hev]

/-- The walk is idempotent at any depth and read-only state: resolution
reads only the provider chain and the field metadata, never the current
field values, and setters overwrite rather than accumulate. -/
theorem walkStruct_idem (provs : List KVProvider) (now : Clock) :
    ∀ (md : Nat) (ro : Bool) (v : FieldVal),
      walkStruct provs now ro md (walkStruct provs now ro md v) = walkStruct provs now ro md v := by
  intro md
  induction md using Nat.strong_induction_on with
  | _ md ih =>
    intro ro v
    cases v with
    | vStruct named fs =>
      rw [walkStruct_fields, walkStruct_fields, List.map_map]
      exact congrArg _ (List.map_congr_left fun f _ =>
        walkFieldStep_idem provs now ro md f (fun md2 h2 => ih md2 h2))
    | vBool b => cases md <;> rfl
    | vInt w n => cases md <;> rfl
    | vUint w n => cases md <;> rfl
    | vFloat q => cases md <;> rfl
    | vStr s => cases md <;> rfl
    | vOther => cases md <;> rfl

/-- When no provider in the chain returns a non-empty value for the key,
resolution returns the caller-supplied default. -/
theorem getValueDefault_fallback (provs : List KVProvider) (key d : Str)
    (h : ∀ p ∈ provs, ∀ v, p key = some v → v = []) :
    getValueDefault provs key d = d := by
  induction provs with
  | nil => rfl
  | cons p rest ih =>
    have hrest : ∀ q ∈ rest, ∀ v, q key = some v → v = [] :=
      fun q hq v hv => h q (List.mem_cons_of_mem _ hq) v hv
    cases hp : p key with
    | none => simp [getValueDefault, hp, ih hrest]
    | some v =>
      have hv : v = [] := h p (List.mem_cons_self _ _) v hp
      subst hv
      simp [getValueDefault, hp, ih hrest]

/-! ## Claims -/

/-- C1: For every field bound to an external key, when both the environment
provider and the programmatic-override map provider hold a non-empty value
for that key, resolution uses the environment value (precedence environment
> process-local map > field default literal), and the walk resolves the
field to it. -/
theorem c1_env_wins (env store : Str → Str) (now : Clock) (md : Nat)
    (key d nm s0 : Str) (hk : key ≠ []) (henv : env key ≠ [])
    (_hstore : store key ≠ []) (hnm : isExported nm = true) :
    getValueDefault (dataProviders env store) key d = env key ∧
    walkStruct (dataProviders env store) now false md
        (.vStruct true [(⟨nm, key, d⟩, .vStr s0)])
      = .vStruct true [(⟨nm, key, d⟩, .vStr (parseDateTimeString now (env key)))] := by
  have h1 : getValueDefault (dataProviders env store) key d = env key := by
    simp [getValueDefault, dataProviders, EnvironmentProviderGet, henv]
  refine ⟨h1, ?_⟩
  rw [walkStruct_fields]
  simp [walkFieldStep, hk, h1, henv, setValue, hnm]

/-- Witness for C1, Scenario D: environment BUILD_NUMBER=8.0.0 and
programmatic override 7.0.0 both present; the field resolves to 8.0.0. -/
theorem c1_env_wins_witness :
    getValueDefault
        (dataProviders (fun k => if k = lit "BUILD_NUMBER" then lit "8.0.0" else [])
          (mapSet emptyStore (lit "BUILD_NUMBER") (lit "7.0.0")))
        (lit "BUILD_NUMBER") [] = lit "8.0.0" ∧
    walkStruct
        (dataProviders (fun k => if k = lit "BUILD_NUMBER" then lit "8.0.0" else [])
          (mapSet emptyStore (lit "BUILD_NUMBER") (lit "7.0.0")))
        clockE false 4
        (.vStruct true [(⟨lit "BuildNumber", lit "BUILD_NUMBER", []⟩, .vStr (lit "7.7.7"))])
      = .vStruct true [(⟨lit "BuildNumber", lit "BUILD_NUMBER", []⟩, .vStr (lit "8.0.0"))] :=
  c1_env_wins (fun k => if k = lit "BUILD_NUMBER" then lit "8.0.0" else [])
    (mapSet emptyStore (lit "BUILD_NUMBER") (lit "7.0.0")) clockE 4
    (lit "BUILD_NUMBER") [] (lit "BuildNumber") (lit "7.7.7")
    (by decide) (by decide) (by decide) (by decide)

/-- C2: The structural walk never errors: ApplyExternalConfig always returns
a nil error, a non-settable field is left at its prior value, unparsable
scalar text for each supported kind leaves the field at its prior value,
and kinds with no registered setter (struct kinds and others) are skipped. -/
theorem c2_walk_never_fails (provs : List KVProvider) (now : Clock) (s : FieldVal) (md : Nat) :
    ApplyExternalConfig provs now s md = Except.ok (walkStruct provs now false md s) ∧
    (∀ fv v, setValue now false fv v = fv) ∧
    (∀ b v, parseBoolGo v = none → setValue now true (.vBool b) v = .vBool b) ∧
    (∀ w n v, (parseIntGo v).2 = false → setValue now true (.vInt w n) v = .vInt w n) ∧
    (∀ w n v, (parseUintGo v).2 = false → setValue now true (.vUint w n) v = .vUint w n) ∧
    (∀ q v, parseFloatGo v = none → setValue now true (.vFloat q) v = .vFloat q) ∧
    (∀ named fs v, setValue now true (.vStruct named fs) v = .vStruct named fs) ∧
    (∀ v, setValue now true .vOther v = .vOther) := by
  refine ⟨rfl, fun fv v => rfl, fun b v h => by simp [setValue, h],
    fun w n v h => by simp [setValue, h], fun w n v h => by simp [setValue, h],
    fun q v h => by simp [setValue, h], fun named fs v => rfl, fun v => rfl⟩

/-- Witness for C2: unparsable text degrades to "keep existing value" on
each scalar kind, at concrete inputs. -/
theorem c2_walk_never_fails_witness :
    setValue clockE true (.vBool true) (lit "zzz") = .vBool true ∧
    setValue clockE true (.vInt 64 7) (lit "12x") = .vInt 64 7 ∧
    setValue clockE true (.vUint 64 7) (lit "-3") = .vUint 64 7 ∧
    setValue clockE true (.vFloat (.finite 0)) (lit "1e") = .vFloat (.finite 0) :=
  ⟨(c2_walk_never_fails [] clockE .vOther 0).2.2.1 true (lit "zzz") (by decide),
   (c2_walk_never_fails [] clockE .vOther 0).2.2.2.1 64 7 (lit "12x") (by decide),
   (c2_walk_never_fails [] clockE .vOther 0).2.2.2.2.1 64 7 (lit "-3") (by decide),
   (c2_walk_never_fails [] clockE .vOther 0).2.2.2.2.2.1 (.finite 0) (lit "1e") (by decide)⟩

/-- C3: For a field with a bound external key for which no provider yields a
non-empty value, resolution falls back to the field's default literal: the
walk applies the default literal through the setter when it is non-empty,
and leaves the field's pre-walk value unchanged when it is also empty. -/
theorem c3_default_literal_fallback (provs : List KVProvider) (now : Clock) (ro : Bool)
    (md : Nat) (key d nm : Str) (fv : FieldVal) (hk : key ≠ [])
    (hnone : ∀ p ∈ provs, ∀ v, p key = some v → v = []) :
    getValueDefault provs key d = d ∧
    (d ≠ [] → walkFieldStep provs now ro md (⟨nm, key, d⟩, fv)
        = (⟨nm, key, d⟩, setValue now (!(ro || !isExported nm)) fv d)) ∧
    (d = [] → walkFieldStep provs now ro md (⟨nm, key, d⟩, fv) = (⟨nm, key, d⟩, fv)) := by
  have h1 : getValueDefault provs key d = d := getValueDefault_fallback provs key d hnone
  refine ⟨h1, fun hd => ?_, fun hd => ?_⟩
  · simp [walkFieldStep, hk, h1, hd]
  · subst hd
    simp [walkFieldStep, hk, h1]

/-- Witness for C3, Scenario A: default literal 1.0.0, empty environment, no
override; the field resolves to 1.0.0 (and with an empty default literal the
pre-walk value is retained). -/
theorem c3_default_literal_fallback_witness :
    walkFieldStep (dataProviders emptyStore emptyStore) clockE false 4
        (⟨lit "Version", lit "VERSION", lit "1.0.0"⟩, .vStr [])
      = (⟨lit "Version", lit "VERSION", lit "1.0.0"⟩, .vStr (lit "1.0.0")) ∧
    walkFieldStep (dataProviders emptyStore emptyStore) clockE false 4
        (⟨lit "Commit", lit "COMMIT", []⟩, .vStr (lit "keep"))
      = (⟨lit "Commit", lit "COMMIT", []⟩, .vStr (lit "keep")) := by
  have hnone : ∀ p ∈ dataProviders emptyStore emptyStore, ∀ v, p (lit "VERSION") = some v → v = [] := by
    intro p hp v hv
    simp only [dataProviders, List.mem_cons, List.mem_singleton] at hp
    rcases hp with rfl | rfl | h
    · exact (Option.some.inj hv).symm
    · exact (Option.some.inj hv).symm
    · simp at h
  have hnone2 : ∀ p ∈ dataProviders emptyStore emptyStore, ∀ v, p (lit "COMMIT") = some v → v = [] := by
    intro p hp v hv
    simp only [dataProviders, List.mem_cons, List.mem_singleton] at hp
    rcases hp with rfl | rfl | h
    · exact (Option.some.inj hv).symm
    · exact (Option.some.inj hv).symm
    · simp at h
  exact ⟨((c3_default_literal_fallback (dataProviders emptyStore emptyStore) clockE false 4
      (lit "VERSION") (lit "1.0.0") (lit "Version") (.vStr []) (by decide) hnone).2.1
      (by decide)).trans (by rfl),
    (c3_default_literal_fallback (dataProviders emptyStore emptyStore) clockE false 4
      (lit "COMMIT") [] (lit "Commit") (.vStr (lit "keep")) (by decide) hnone2).2.2 rfl⟩

/-- C4: resolve iterates the providers in chain order and returns the value
of the first provider that yields a found, non-empty result; if no provider
yields such a result it returns the fallback default. -/
theorem c4_resolve_first_nonempty (provs : List KVProvider) (key d : Str) :
    (∃ pre q post v, provs = pre ++ q :: post ∧
      (∀ r ∈ pre, ∀ u, r key = some u → u = []) ∧
      q key = some v ∧ v ≠ [] ∧ getValueDefault provs key d = v) ∨
    ((∀ p ∈ provs, ∀ u, p key = some u → u = []) ∧ getValueDefault provs key d = d) := by
  induction provs with
  | nil => exact Or.inr ⟨by simp, rfl⟩
  | cons p rest ih =>
    cases hp : p key with
    | none =>
      rcases ih with ⟨pre, q, post, v, hsplit, hpre, hq, hv, hres⟩ | ⟨hall, hres⟩
      · exact Or.inl ⟨p :: pre, q, post, v, by rw [hsplit, List.cons_append], by
          intro r hr u hu
          rcases List.mem_cons.mp hr with rfl | hr2
          · simp [hp] at hu
          · exact hpre r hr2 u hu,
          hq, hv, by simp [getValueDefault, hp, hres]⟩
      · exact Or.inr ⟨by
          intro r hr u hu
          rcases List.mem_cons.mp hr with rfl | hr2
          · simp [hp] at hu
          · exact hall r hr2 u hu,
          by simp [getValueDefault, hp, hres]⟩
    | some v =>
      by_cases hv : v = []
      · subst hv
        rcases ih with ⟨pre, q, post, u, hsplit, hpre, hq, hu, hres⟩ | ⟨hall, hres⟩
        · exact Or.inl ⟨p :: pre, q, post, u, by rw [hsplit, List.cons_append], by
            intro r hr u2 hu2
            rcases List.mem_cons.mp hr with rfl | hr2
            · rw [hp] at hu2
              exact (Option.some.inj hu2).symm
            · exact hpre r hr2 u2 hu2,
            hq, hu, by simp [getValueDefault, hp, hres]⟩
        · exact Or.inr ⟨by
            intro r hr u2 hu2
            rcases List.mem_cons.mp hr with rfl | hr2
            · rw [hp] at hu2
              exact (Option.some.inj hu2).symm
            · exact hall r hr2 u2 hu2,
            by simp [getValueDefault, hp, hres]⟩
      · exact Or.inl ⟨[], p, rest, v, rfl, by simp, hp, hv,
          by simp [getValueDefault, hp, hv]⟩

/-- C7: a field with no bound external key that is not a (named) nested
struct is never modified by the walk, at any depth and read-only state. -/
theorem c7_unbound_nonstruct_untouched (provs : List KVProvider) (now : Clock) (ro : Bool)
    (md : Nat) (f : FieldInfo × FieldVal) (htag : f.1.envTag = [])
    (hstruct : isStructF f.2 = false) :
    walkFieldStep provs now ro md f = f := by
  cases md with
  | zero => simp [walkFieldStep, htag]
  | succ md2 => simp [walkFieldStep, htag, hstruct]

/-- C5: a field with no bound external key that is a nested record is
recursed into exactly when the remaining depth is positive, with depth one
less (and the walk's read-only state extended by the field's exportedness);
at depth 0 it is left untouched.  Concretely, walking a 6-level chain at the
driver's depth bound resolves the bound fields of levels 0..4 and leaves
level 5 at its pre-walk value; and the driver invokes the walk with the
engine-wide fixed depth 4. -/
theorem c5_depth_boundary :
    (∀ (provs : List KVProvider) (now : Clock) (ro : Bool) (nm d : Str) (named : Bool)
        (fs : List (FieldInfo × FieldVal)),
      walkFieldStep provs now ro 0 (⟨nm, [], d⟩, .vStruct named fs)
        = (⟨nm, [], d⟩, .vStruct named fs)) ∧
    (∀ (provs : List KVProvider) (now : Clock) (ro : Bool) (md : Nat) (nm d : Str)
        (fs : List (FieldInfo × FieldVal)),
      walkFieldStep provs now ro (md + 1) (⟨nm, [], d⟩, .vStruct true fs)
        = (⟨nm, [], d⟩, walkStruct provs now (ro || !isExported nm) md (.vStruct true fs))) ∧
    chainValuesF 6 (walkStruct (dataProviders envK emptyStore) clockE false 4 (depthChain 5))
      = [lit "new", lit "new", lit "new", lit "new", lit "new", lit "old"] ∧
    (∀ (env : Str → Str) (defaults : List (Str × Str)) (store0 : Str → Str) (conf : FieldVal)
        (now : Clock),
      InitCore env defaults store0 conf now
        = walkStruct (dataProviders env (defaults.foldl (fun st kv => mapSet st kv.1 kv.2) store0))
            now false 4 conf) :=
  ⟨fun _ _ _ _ _ _ _ => rfl, fun _ _ _ _ _ _ _ => rfl, rfl, fun _ _ _ _ _ => rfl⟩

/-- Witness for C7: a concrete unbound string field passes through the walk
unchanged. -/
theorem c7_unbound_nonstruct_untouched_witness :
    walkFieldStep (dataProviders emptyStore emptyStore) clockE false 4
        (⟨lit "Note", [], []⟩, .vStr (lit "keep"))
      = (⟨lit "Note", [], []⟩, .vStr (lit "keep")) :=
  c7_unbound_nonstruct_untouched (dataProviders emptyStore emptyStore) clockE false 4
    (⟨lit "Note", [], []⟩, .vStr (lit "keep")) rfl rfl

/-- C9: resolution is idempotent: with the provider chain (and the injected
clock, which stands for the excluded wall-clock placeholders) unchanged,
walking the record a second time yields the record of the first walk. -/
theorem c9_resolution_idempotent (provs : List KVProvider) (now : Clock) (md : Nat)
    (s : FieldVal) :
    walkStruct provs now false md (walkStruct provs now false md s)
      = walkStruct provs now false md s :=
  walkStruct_idem provs now md false s

/-- Walking the buildData struct in read-only state leaves every field
unchanged: all four fields are bound, and the settability check fails. -/
theorem walk_buildData_readOnly (provs : List KVProvider) (now : Clock) (md : Nat)
    (ver com br bn : Str) :
    walkStruct provs now true md (buildDataV ver com br bn) = buildDataV ver com br bn := by
  rw [show buildDataV ver com br bn
      = FieldVal.vStruct true
          [(⟨lit "Version", lit "VERSION", lit "1.3"⟩, FieldVal.vStr ver),
           (⟨lit "Commit", lit "COMMIT", []⟩, FieldVal.vStr com),
           (⟨lit "Branch", lit "BRANCH", []⟩, FieldVal.vStr br),
           (⟨lit "BuildNumber", lit "BUILD_NUMBER", []⟩, FieldVal.vStr bn)] from rfl,
    walkStruct_fields]
  show FieldVal.vStruct true
      [(if getValueDefault provs (lit "VERSION") (lit "1.3") ≠ []
          then (⟨lit "Version", lit "VERSION", lit "1.3"⟩, FieldVal.vStr ver)
          else (⟨lit "Version", lit "VERSION", lit "1.3"⟩, FieldVal.vStr ver)),
       (if getValueDefault provs (lit "COMMIT") [] ≠ []
          then (⟨lit "Commit", lit "COMMIT", []⟩, FieldVal.vStr com)
          else (⟨lit "Commit", lit "COMMIT", []⟩, FieldVal.vStr com)),
       (if getValueDefault provs (lit "BRANCH") [] ≠ []
          then (⟨lit "Branch", lit "BRANCH", []⟩, FieldVal.vStr br)
          else (⟨lit "Branch", lit "BRANCH", []⟩, FieldVal.vStr br)),
       (if getValueDefault provs (lit "BUILD_NUMBER") [] ≠ []
          then (⟨lit "BuildNumber", lit "BUILD_NUMBER", []⟩, FieldVal.vStr bn)
          else (⟨lit "BuildNumber", lit "BUILD_NUMBER", []⟩, FieldVal.vStr bn))]
    = buildDataV ver com br bn
  rw [ite_self, ite_self, ite_self, ite_self]
  rfl

/-- C10: on the package's own Configuration value the four Build fields
(Version, Commit, Branch, BuildNumber) always retain their pre-walk values,
whatever the environment and override map hold for VERSION, COMMIT, BRANCH
and BUILD_NUMBER: they sit below the unexported embedded field buildData,
so reflect marks them read-only and setValue's settability check fails. -/
theorem c10_build_fields_read_only (env store : Str → Str) (now : Clock) (md : Nat)
    (ll ver com br bn : Str) :
    buildFieldsOf (walkStruct (dataProviders env store) now false md
        (ConfigurationV ll ver com br bn))
      = some (ver, com, br, bn) := by
  rcases md with _ | _ | md
  · rfl
  · rfl
  · rw [show ConfigurationV ll ver com br bn
        = .vStruct true
            [(⟨lit "LogLevel", lit "LOG_LEVEL", []⟩, .vStr ll),
             (⟨lit "Build", [], []⟩, BuildV ver com br bn)] from rfl,
      walkStruct_fields]
    simp only [List.map_cons, List.map_nil]
    generalize walkFieldStep (dataProviders env store) now false (md + 1 + 1)
      (⟨lit "LogLevel", lit "LOG_LEVEL", []⟩, FieldVal.vStr ll) = X
    show buildFieldsOf
        (FieldVal.vStruct true
          [X, (⟨lit "Build", [], []⟩, FieldVal.vStruct true
            [(⟨lit "buildData", [], []⟩,
              walkStruct (dataProviders env store) now true md (buildDataV ver com br bn))])])
      = some (ver, com, br, bn)
    rw [walk_buildData_readOnly]
    rfl

/-! ## Lemmas about the placeholder scanner -/

theorem dropWhile_length_le (p : Char → Bool) : ∀ l : Str, (l.dropWhile p).length ≤ l.length := by
  intro l
  induction l with
  | nil => simp
  | cons a as ih =>
    rw [List.dropWhile_cons]
    split
    · exact Nat.le_trans ih (Nat.le_succ _)
    · exact Nat.le_refl _

theorem takeWhile_dropWhile_append (p : Char → Bool) (l r : Str)
    (hl : ∀ c ∈ l, p c = true) (hr : ∀ c, r.head? = some c → p c = false) :
    (l ++ r).takeWhile p = l ∧ (l ++ r).dropWhile p = r := by
  induction l with
  | nil =>
    simp only [List.nil_append]
    cases r with
    | nil => exact ⟨rfl, rfl⟩
    | cons c rs =>
      have hc := hr c rfl
      simp [List.takeWhile_cons, List.dropWhile_cons, hc]
  | cons a as ih =>
    have ha := hl a (List.mem_cons_self _ _)
    obtain ⟨h1, h2⟩ := ih (fun c hc => hl c (List.mem_cons_of_mem _ hc))
    simp [List.takeWhile_cons, List.dropWhile_cons, ha, h1, h2]

theorem matchSeg_snd_length : ∀ s : Str, (matchSeg s).2.length ≤ s.length := by
  intro s
  cases s with
  | nil => exact Nat.le_refl _
  | cons c rest =>
    simp only [matchSeg]
    split
    · exact Nat.le_trans (dropWhile_length_le _ _) (Nat.le_succ _)
    · exact dropWhile_length_le _ _

theorem expectChar_length (ch : Char) (s r : Str) (h : expectChar ch s = some r) :
    r.length < s.length := by
  cases s with
  | nil => simp [expectChar] at h
  | cons c rest =>
    simp only [expectChar] at h
    split at h
    · cases h
      exact Nat.lt_succ_self _
    · cases h

theorem matchInner_rest_length (s : Str) (i r : Str) (h : matchInner s = some (i, r)) :
    r.length ≤ s.length := by
  unfold matchInner at h
  split at h
  · cases h
  · cases h1 : expectChar ':' (s.dropWhile isWordChar) with
    | none => rw [h1] at h; cases h
    | some r1 =>
      rw [h1] at h
      simp only [Option.bind] at h
      cases h2 : expectChar ',' (matchSeg r1).2 with
      | none => rw [h2] at h; cases h
      | some r2 =>
        rw [h2] at h
        simp only [Option.bind] at h
        cases h3 : expectChar ',' (matchSeg r2).2 with
        | none => rw [h3] at h; cases h
        | some r3 =>
          rw [h3] at h
          simp only [Option.bind] at h
          cases h4 : expectChar rbrace (matchSeg r3).2 with
          | none => rw [h4] at h; cases h
          | some r4 =>
            rw [h4] at h
            simp only [Option.bind] at h
            cases h5 : expectChar rbrace r4 with
            | none => rw [h5] at h; cases h
            | some r5 =>
              rw [h5] at h
              simp only [Option.bind, Option.some.injEq, Prod.mk.injEq] at h
              have e1 := expectChar_length _ _ _ h1
              have e2 := expectChar_length _ _ _ h2
              have e3 := expectChar_length _ _ _ h3
              have e4 := expectChar_length _ _ _ h4
              have e5 := expectChar_length _ _ _ h5
              have m1 := matchSeg_snd_length r1
              have m2 := matchSeg_snd_length r2
              have m3 := matchSeg_snd_length r3
              have d1 := dropWhile_length_le isWordChar s
              rw [← h.2]
              omega

theorem isDigit_facts (c : Char) (h : c.isDigit = true) :
    ¬(c = ':') ∧ ¬(c = ',') ∧ ¬(c = '-') ∧ ¬(c = lbrace) ∧ ¬(c = rbrace) := by
  refine ⟨?_, ?_, ?_, ?_, ?_⟩ <;> (intro he; subst he; exact absurd h (by decide))

theorem isWordChar_facts (c : Char) (h : isWordChar c = true) :
    ¬(c = ':') ∧ ¬(c = ',') ∧ ¬(c = lbrace) ∧ ¬(c = rbrace) := by
  refine ⟨?_, ?_, ?_, ?_⟩ <;> (intro he; subst he; exact absurd h (by decide))

theorem segOK_chars (s : Str) (hs : segOK s = true) :
    ∀ c ∈ s, c.isDigit = true ∨ c = '-' := by
  cases s with
  | nil => intro c hc; simp at hc
  | cons a rest =>
    simp only [segOK] at hs
    split at hs
    · next ha =>
      intro c hc
      rcases List.mem_cons.mp hc with rfl | hc2
      · exact Or.inr ha
      · exact Or.inl (List.all_eq_true.mp hs c hc2)
    · next ha =>
      intro c hc
      exact Or.inl (List.all_eq_true.mp hs c hc)

theorem segChar_facts (c : Char) (h : c.isDigit = true ∨ c = '-') :
    ¬(c = ':') ∧ ¬(c = ',') ∧ ¬(c = lbrace) ∧ ¬(c = rbrace) := by
  rcases h with h | rfl
  · obtain ⟨h1, h2, _, h4, h5⟩ := isDigit_facts c h
    exact ⟨h1, h2, h4, h5⟩
  · exact ⟨by decide, by decide, by decide, by decide⟩

theorem matchSeg_append (s r : Str) (hs : segOK s = true)
    (hr : ∀ c, r.head? = some c → (c.isDigit = false ∧ ¬(c = '-'))) :
    matchSeg (s ++ r) = (s, r) := by
  cases s with
  | nil =>
    simp only [List.nil_append]
    cases r with
    | nil => rfl
    | cons c rs =>
      obtain ⟨hd, hm⟩ := hr c rfl
      simp only [matchSeg]
      rw [if_neg hm]
      simp [List.takeWhile_cons, List.dropWhile_cons, hd]
  | cons a rest =>
    simp only [segOK] at hs
    by_cases ha : a = '-'
    · subst ha
      rw [if_pos rfl] at hs
      show matchSeg ('-' :: (rest ++ r)) = _
      simp only [matchSeg, if_pos rfl]
      obtain ⟨h1, h2⟩ := takeWhile_dropWhile_append Char.isDigit rest r
        (List.all_eq_true.mp hs) (fun c hc => (hr c hc).1)
      rw [h1, h2]
      simp
    · rw [if_neg ha] at hs
      show matchSeg (a :: (rest ++ r)) = _
      simp only [matchSeg]
      rw [if_neg ha]
      obtain ⟨h1, h2⟩ := takeWhile_dropWhile_append Char.isDigit (a :: rest) r
        (List.all_eq_true.mp hs) (fun c hc => (hr c hc).1)
      rw [show a :: (rest ++ r) = (a :: rest) ++ r from rfl, h1, h2]

theorem matchInner_token (u a b c rest : Str) (hok : chunkOK (.tok u a b c) = true) :
    matchInner (tokInner u a b c ++ (rbrace :: rbrace :: rest))
      = some (tokInner u a b c, rest) := by
  have hok' := hok
  simp only [chunkOK, Bool.and_eq_true] at hok'
  obtain ⟨⟨⟨⟨hu, hw⟩, ha⟩, hb⟩, hc⟩ := hok'
  have hune : u ≠ [] := by
    cases u
    · simp at hu
    · simp
  have e : tokInner u a b c ++ (rbrace :: rbrace :: rest)
      = u ++ (':' :: (a ++ ',' :: (b ++ ',' :: (c ++ rbrace :: rbrace :: rest)))) := by
    simp [tokInner, List.append_assoc]
  have hcolon : ∀ x : Char, (':' :: (a ++ ',' :: (b ++ ',' :: (c ++ rbrace :: rbrace :: rest)))).head? = some x
      → isWordChar x = false := by
    intro x hx
    cases hx
    decide
  obtain ⟨h1, h2⟩ := takeWhile_dropWhile_append isWordChar u _ (List.all_eq_true.mp hw) hcolon
  have hseg1 : matchSeg (a ++ (',' :: (b ++ ',' :: (c ++ rbrace :: rbrace :: rest))))
      = (a, ',' :: (b ++ ',' :: (c ++ rbrace :: rbrace :: rest))) :=
    matchSeg_append a _ ha (fun x hx => by cases hx; exact ⟨by decide, by decide⟩)
  have hseg2 : matchSeg (b ++ (',' :: (c ++ rbrace :: rbrace :: rest)))
      = (b, ',' :: (c ++ rbrace :: rbrace :: rest)) :=
    matchSeg_append b _ hb (fun x hx => by cases hx; exact ⟨by decide, by decide⟩)
  have hseg3 : matchSeg (c ++ (rbrace :: rbrace :: rest))
      = (c, rbrace :: rbrace :: rest) :=
    matchSeg_append c _ hc (fun x hx => by cases hx; exact ⟨by decide, by decide⟩)
  unfold matchInner
  rw [e, h1, h2, if_neg hune]
  simp [expectChar, Option.bind, hseg1, hseg2, hseg3, tokInner]

theorem findMatchesF_congr : ∀ (f1 f2 : Nat) (s : Str), s.length ≤ f1 → s.length ≤ f2 →
    findMatchesF f1 s = findMatchesF f2 s := by
  intro f1
  induction f1 with
  | zero =>
    intro f2 s h1 _
    have : s = [] := List.eq_nil_of_length_eq_zero (Nat.le_zero.mp h1)
    subst this
    cases f2 <;> rfl
  | succ f1 ih =>
    intro f2 s h1 h2
    cases s with
    | nil => cases f2 <;> rfl
    | cons c rest =>
      cases f2 with
      | zero => simp at h2
      | succ f2 =>
        simp only [List.length_cons, Nat.succ_le_succ_iff] at h1 h2
        by_cases hc : c = lbrace
        · subst hc
          cases rest with
          | nil => rfl
          | cons c2 rest2 =>
            by_cases hc2 : c2 = lbrace
            · subst hc2
              cases hm : matchInner rest2 with
              | none =>
                simp only [findMatchesF, hm, eq_self_iff_true, if_true]
                exact ih f2 (lbrace :: rest2) h1 h2
              | some pr =>
                obtain ⟨inner, rest3⟩ := pr
                have hlen : rest3.length ≤ rest2.length := matchInner_rest_length _ _ _ hm
                simp only [List.length_cons] at h1 h2
                simp only [findMatchesF, hm, eq_self_iff_true, if_true, List.cons.injEq, true_and]
                exact ih f2 rest3 (by omega) (by omega)
            · simp only [findMatchesF, eq_self_iff_true, if_true, if_neg hc2]
              exact ih f2 (c2 :: rest2) h1 h2
        · simp only [findMatchesF, if_neg hc]
          exact ih f2 rest h1 h2

theorem findMatches_cons (c : Char) (rest : Str) :
    findMatches (c :: rest) =
      if c = lbrace then
        match rest with
        | c2 :: rest2 =>
          if c2 = lbrace then
            match matchInner rest2 with
            | some (inner, rest3) =>
              (lbrace :: lbrace :: (inner ++ [rbrace, rbrace]), inner) :: findMatches rest3
            | none => findMatches rest
          else findMatches rest
        | [] => []
      else findMatches rest := by
  by_cases hc : c = lbrace
  · subst hc
    cases rest with
    | nil => rfl
    | cons c2 rest2 =>
      by_cases hc2 : c2 = lbrace
      · subst hc2
        cases hm : matchInner rest2 with
        | none => simp [findMatches, findMatchesF, hm]
        | some pr =>
          obtain ⟨inner, rest3⟩ := pr
          have hlen : rest3.length ≤ rest2.length := matchInner_rest_length _ _ _ hm
          simp only [findMatches, List.length_cons, findMatchesF, hm, eq_self_iff_true, if_true,
            List.cons.injEq, true_and]
          exact findMatchesF_congr (rest2.length + 1) rest3.length rest3 (by omega) (Nat.le_refl _)
      · simp [findMatches, findMatchesF, if_neg hc2]
  · simp [findMatches, findMatchesF, if_neg hc]

theorem findMatches_append_no_lbrace (l r : Str) (hl : ∀ c ∈ l, ¬(c = lbrace)) :
    findMatches (l ++ r) = findMatches r := by
  induction l with
  | nil => rfl
  | cons a as ih =>
    rw [List.cons_append, findMatches_cons,
      if_neg (hl a (List.mem_cons_self _ _))]
    exact ih (fun x hx => hl x (List.mem_cons_of_mem _ hx))

theorem findMatches_no_lbrace (s : Str) (hs : ∀ c ∈ s, ¬(c = lbrace)) :
    findMatches s = [] := by
  have h := findMatches_append_no_lbrace s [] hs
  rwa [List.append_nil] at h

theorem findMatches_token (u a b c : Str) (rest : Str) (hok : chunkOK (.tok u a b c) = true) :
    findMatches (renderChunk (.tok u a b c) ++ rest)
      = (renderChunk (.tok u a b c), tokInner u a b c) :: findMatches rest := by
  have e : renderChunk (.tok u a b c) ++ rest
      = lbrace :: lbrace :: (tokInner u a b c ++ (rbrace :: rbrace :: rest)) := by
    simp [renderChunk, List.append_assoc]
  rw [e, findMatches_cons]
  simp only [eq_self_iff_true, if_true, matchInner_token u a b c rest hok]
  simp [renderChunk, List.append_assoc]

theorem braceFreeB_no_lbrace (s : Str) (h : braceFreeB s = true) : ∀ x ∈ s, ¬(x = lbrace) := by
  intro x hx
  have h2 := List.all_eq_true.mp h x hx
  simp only [Bool.and_eq_true, Bool.not_eq_true'] at h2
  intro he
  rw [he] at h2
  simp at h2

theorem findMatches_chunks (chunks : List Chunk) (hok : ∀ ch ∈ chunks, chunkOK ch = true) :
    findMatches (chunks.map renderChunk).flatten = tokMatches chunks := by
  induction chunks with
  | nil => rfl
  | cons ch rest ih =>
    have hrest : ∀ ch2 ∈ rest, chunkOK ch2 = true :=
      fun ch2 h2 => hok ch2 (List.mem_cons_of_mem _ h2)
    cases ch with
    | lit s =>
      have hok1 : chunkOK (.lit s) = true := hok _ (List.mem_cons_self _ _)
      simp only [chunkOK] at hok1
      simp only [List.map_cons, List.flatten_cons, renderChunk]
      rw [findMatches_append_no_lbrace s _ (braceFreeB_no_lbrace s hok1), ih hrest]
      rfl
    | tok u a b c =>
      simp only [List.map_cons, List.flatten_cons]
      rw [findMatches_token u a b c _ (hok _ (List.mem_cons_self _ _)), ih hrest]
      rfl

/-! ## Lemmas about strings.Replace -/

theorem isPrefixOfB_self_append : ∀ (l r : Str), isPrefixOfB l (l ++ r) = true := by
  intro l r
  induction l with
  | nil => rfl
  | cons a as ih => simp [isPrefixOfB, ih]

theorem replaceAllF_congr (p : Char) (ps repl : Str) :
    ∀ (f1 f2 : Nat) (s : Str), s.length ≤ f1 → s.length ≤ f2 →
      replaceAllF p ps repl f1 s = replaceAllF p ps repl f2 s := by
  intro f1
  induction f1 with
  | zero =>
    intro f2 s h1 _
    have : s = [] := List.eq_nil_of_length_eq_zero (Nat.le_zero.mp h1)
    subst this
    cases f2 <;> rfl
  | succ f1 ih =>
    intro f2 s h1 h2
    cases s with
    | nil => cases f2 <;> rfl
    | cons c rest =>
      cases f2 with
      | zero => simp at h2
      | succ f2 =>
        simp only [List.length_cons, Nat.succ_le_succ_iff] at h1 h2
        by_cases hp : isPrefixOfB (p :: ps) (c :: rest) = true
        · simp only [replaceAllF, if_pos hp]
          exact congrArg _ (ih f2 _ (by simp only [List.length_drop]; omega)
            (by simp only [List.length_drop]; omega))
        · simp only [replaceAllF, if_neg hp]
          exact congrArg _ (ih f2 rest h1 h2)

theorem replaceAllNE_cons (p : Char) (ps repl : Str) (c : Char) (rest : Str) :
    replaceAllNE p ps repl (c :: rest) =
      if isPrefixOfB (p :: ps) (c :: rest) then
        repl ++ replaceAllNE p ps repl (rest.drop ps.length)
      else c :: replaceAllNE p ps repl rest := by
  show replaceAllF p ps repl (rest.length + 1) (c :: rest) = _
  by_cases hp : isPrefixOfB (p :: ps) (c :: rest) = true
  · simp only [replaceAllF, if_pos hp, replaceAllNE]
    exact congrArg _ (replaceAllF_congr p ps repl _ _ _
      (by simp only [List.length_drop]; omega) (Nat.le_refl _))
  · simp only [replaceAllF, if_neg hp, replaceAllNE]

theorem replaceAllNE_skip (p : Char) (ps repl : Str) (l r : Str)
    (hl : ∀ x ∈ l, ¬(x = p)) :
    replaceAllNE p ps repl (l ++ r) = l ++ replaceAllNE p ps repl r := by
  induction l with
  | nil => simp
  | cons a as ih =>
    rw [List.cons_append, replaceAllNE_cons]
    have hpre : isPrefixOfB (p :: ps) (a :: (as ++ r)) = false := by
      simp only [isPrefixOfB]
      rw [if_neg (fun h => hl a (List.mem_cons_self _ _) h.symm)]
    rw [if_neg (fun hcontra => Bool.false_ne_true (hpre ▸ hcontra)),
      ih (fun x hx => hl x (List.mem_cons_of_mem _ hx)), List.cons_append]

theorem replaceAllNE_hit (p : Char) (ps repl r : Str) :
    replaceAllNE p ps repl (p :: (ps ++ r)) = repl ++ replaceAllNE p ps repl r := by
  rw [replaceAllNE_cons]
  have hpre : isPrefixOfB (p :: ps) (p :: (ps ++ r)) = true := by
    simp only [isPrefixOfB, if_pos rfl]
    exact isPrefixOfB_self_append ps r
  rw [if_pos hpre, List.drop_left]

/-- Replacing a non-empty string inside itself yields the replacement. -/
theorem stringsReplaceAll_self (s repl : Str) (h : ¬(s = [])) :
    stringsReplaceAll s s repl = repl := by
  match s with
  | [] => exact absurd rfl h
  | p :: ps =>
    show replaceAllNE p ps repl (p :: ps) = repl
    have hh := replaceAllNE_hit p ps repl []
    rw [List.append_nil] at hh
    rw [hh, show replaceAllNE p ps repl [] = [] from rfl, List.append_nil]

theorem tokInner_chars (u a b c : Str) (hok : chunkOK (.tok u a b c) = true) :
    ∀ x ∈ tokInner u a b c, ¬(x = lbrace) ∧ ¬(x = rbrace) := by
  simp only [chunkOK, Bool.and_eq_true] at hok
  obtain ⟨⟨⟨⟨_, hw⟩, ha⟩, hb⟩, hc⟩ := hok
  intro x hx
  simp only [tokInner, List.mem_append, List.mem_cons] at hx
  rcases hx with hx | hx | hx | hx | hx | hx | hx
  · obtain ⟨_, _, h4, h5⟩ := isWordChar_facts x (List.all_eq_true.mp hw x hx)
    exact ⟨h4, h5⟩
  · subst hx; exact ⟨by decide, by decide⟩
  · obtain ⟨_, _, h4, h5⟩ := segChar_facts x (segOK_chars a ha x hx)
    exact ⟨h4, h5⟩
  · subst hx; exact ⟨by decide, by decide⟩
  · obtain ⟨_, _, h4, h5⟩ := segChar_facts x (segOK_chars b hb x hx)
    exact ⟨h4, h5⟩
  · subst hx; exact ⟨by decide, by decide⟩
  · obtain ⟨_, _, h4, h5⟩ := segChar_facts x (segOK_chars c hc x hx)
    exact ⟨h4, h5⟩

theorem innerPrefixFalse : ∀ (iP iA rest : Str),
    (∀ x ∈ iP, ¬(x = rbrace)) → (∀ x ∈ iA, ¬(x = rbrace)) → iP ≠ iA →
    isPrefixOfB (iP ++ [rbrace, rbrace]) (iA ++ rbrace :: rbrace :: rest) = false := by
  intro iP
  induction iP with
  | nil =>
    intro iA rest _ hA hne
    cases iA with
    | nil => exact absurd rfl hne
    | cons y ys =>
      simp only [List.nil_append, List.cons_append, isPrefixOfB]
      rw [if_neg (fun h => hA y (List.mem_cons_self _ _) h.symm)]
  | cons x xs ih =>
    intro iA rest hP hA hne
    cases iA with
    | nil =>
      simp only [List.cons_append, List.nil_append, isPrefixOfB]
      rw [if_neg (hP x (List.mem_cons_self _ _))]
    | cons y ys =>
      simp only [List.cons_append, isPrefixOfB]
      by_cases hxy : x = y
      · subst hxy
        rw [if_pos rfl]
        exact ih ys rest (fun z hz => hP z (List.mem_cons_of_mem _ hz))
          (fun z hz => hA z (List.mem_cons_of_mem _ hz))
          (fun h => hne (by rw [h]))
      · rw [if_neg hxy]

theorem renderTokPrefixFalse (u1 a1 b1 c1 u2 a2 b2 c2 rest : Str)
    (h1 : chunkOK (.tok u1 a1 b1 c1) = true) (h2 : chunkOK (.tok u2 a2 b2 c2) = true)
    (hne : renderChunk (.tok u1 a1 b1 c1) ≠ renderChunk (.tok u2 a2 b2 c2)) :
    isPrefixOfB (renderChunk (.tok u1 a1 b1 c1)) (renderChunk (.tok u2 a2 b2 c2) ++ rest)
      = false := by
  have hinner : tokInner u1 a1 b1 c1 ≠ tokInner u2 a2 b2 c2 := by
    intro h
    exact hne (by simp [renderChunk, h])
  have e : renderChunk (.tok u2 a2 b2 c2) ++ rest
      = lbrace :: (lbrace :: (tokInner u2 a2 b2 c2 ++ (rbrace :: rbrace :: rest))) := by
    simp [renderChunk, List.append_assoc]
  rw [e]
  show isPrefixOfB (lbrace :: lbrace :: (tokInner u1 a1 b1 c1 ++ [rbrace, rbrace])) _ = false
  simp only [isPrefixOfB, if_pos rfl]
  exact innerPrefixFalse _ _ _ (fun x hx => (tokInner_chars u1 a1 b1 c1 h1 x hx).2)
    (fun x hx => (tokInner_chars u2 a2 b2 c2 h2 x hx).2) hinner

/-- The shape hypothesis on the pieces of a partially-expanded chunk string:
each piece is either brace-free or the rendering of a well-formed token. -/
def PieceOK (x : Str) : Prop :=
  (∀ ch ∈ x, ¬(ch = lbrace)) ∨
    ∃ u2 a2 b2 c2, chunkOK (.tok u2 a2 b2 c2) = true ∧ x = renderChunk (.tok u2 a2 b2 c2)

theorem replaceAll_chunks_aux (u a b c repl : Str) (hok : chunkOK (.tok u a b c) = true) :
    ∀ pieces : List Str, (∀ x ∈ pieces, PieceOK x) →
      replaceAllNE lbrace (lbrace :: (tokInner u a b c ++ [rbrace, rbrace])) repl pieces.flatten
        = (pieces.map (fun x => if x = renderChunk (.tok u a b c) then repl else x)).flatten := by
  intro pieces
  induction pieces with
  | nil => intro _; rfl
  | cons x rest ih =>
    intro hp
    have hx := hp x (List.mem_cons_self _ _)
    have hrest := ih (fun y hy => hp y (List.mem_cons_of_mem _ hy))
    rw [List.flatten_cons, List.map_cons, List.flatten_cons]
    rcases hx with hlit | ⟨u2, a2, b2, c2, hok2, rfl⟩
    · have hxp : ¬(x = renderChunk (.tok u a b c)) := by
        intro h
        have hm : lbrace ∈ x := by
          rw [h]
          simp [renderChunk]
        exact hlit lbrace hm rfl
      rw [replaceAllNE_skip lbrace _ repl x rest.flatten hlit, hrest, if_neg hxp]
    · by_cases heq : renderChunk (.tok u2 a2 b2 c2) = renderChunk (.tok u a b c)
      · rw [if_pos heq, heq]
        have e : renderChunk (.tok u a b c) ++ rest.flatten
            = lbrace :: ((lbrace :: (tokInner u a b c ++ [rbrace, rbrace])) ++ rest.flatten) := by
          simp only [renderChunk, List.cons_append]
        rw [e, replaceAllNE_hit, hrest]
      · rw [if_neg heq]
        have hnp := renderTokPrefixFalse u a b c u2 a2 b2 c2 rest.flatten hok hok2
          (fun h => heq h.symm)
        have hpat : renderChunk (.tok u a b c)
            = lbrace :: (lbrace :: (tokInner u a b c ++ [rbrace, rbrace])) := by
          simp [renderChunk]
        have e2 : renderChunk (.tok u2 a2 b2 c2) ++ rest.flatten
            = lbrace :: (lbrace :: (tokInner u2 a2 b2 c2 ++ (rbrace :: rbrace :: rest.flatten))) := by
          simp [renderChunk, List.append_assoc]
        rw [e2, replaceAllNE_cons]
        rw [e2, hpat] at hnp
        rw [if_neg (fun hcontra => Bool.false_ne_true (hnp ▸ hcontra)), replaceAllNE_cons]
        have hpre2 : isPrefixOfB (lbrace :: (lbrace :: (tokInner u a b c ++ [rbrace, rbrace])))
            (lbrace :: (tokInner u2 a2 b2 c2 ++ (rbrace :: rbrace :: rest.flatten))) = false := by
          simp only [isPrefixOfB, if_pos rfl]
          cases hu2 : u2 with
          | nil =>
            rw [hu2] at hok2
            simp [chunkOK] at hok2
          | cons w ws =>
            rw [hu2] at hok2
            simp only [chunkOK, Bool.and_eq_true] at hok2
            obtain ⟨⟨⟨⟨_, hw2⟩, _⟩, _⟩, _⟩ := hok2
            have hwword : isWordChar w = true :=
              List.all_eq_true.mp hw2 w (List.mem_cons_self _ _)
            have hlw : ¬(lbrace = w) := fun h => (isWordChar_facts w hwword).2.2.1 h.symm
            simp [tokInner, List.cons_append, isPrefixOfB, hlw]
        rw [if_neg (fun hcontra => Bool.false_ne_true (hpre2 ▸ hcontra))]
        have e3 : tokInner u2 a2 b2 c2 ++ (rbrace :: rbrace :: rest.flatten)
            = (tokInner u2 a2 b2 c2 ++ [rbrace, rbrace]) ++ rest.flatten := by
          simp [List.append_assoc]
        have hnl : ∀ ch ∈ tokInner u2 a2 b2 c2 ++ [rbrace, rbrace], ¬(ch = lbrace) := by
          intro ch hch
          rcases List.mem_append.mp hch with hch | hch
          · exact (tokInner_chars u2 a2 b2 c2 hok2 ch hch).1
          · simp only [List.mem_cons, List.not_mem_nil, or_false] at hch
            rcases hch with rfl | rfl <;> decide
        rw [e3, replaceAllNE_skip lbrace _ repl _ rest.flatten hnl, hrest]
        simp [renderChunk, List.append_assoc]

/-- strings.Replace over the concatenation of well-shaped pieces, with a
well-formed token text as the pattern, replaces exactly the pieces equal to
the pattern. -/
theorem replaceAll_chunks (u a b c repl : Str) (hok : chunkOK (.tok u a b c) = true)
    (pieces : List Str) (hp : ∀ x ∈ pieces, PieceOK x) :
    stringsReplaceAll pieces.flatten (renderChunk (.tok u a b c)) repl
      = (pieces.map (fun x => if x = renderChunk (.tok u a b c) then repl else x)).flatten := by
  show replaceAllNE lbrace (lbrace :: (tokInner u a b c ++ [rbrace, rbrace])) repl pieces.flatten = _
  exact replaceAll_chunks_aux u a b c repl hok pieces hp

/-! ## Lemmas about goSplit and the match loop body -/

theorem goSplit_no_sep (sep : Char) (s : Str) (h : ∀ c ∈ s, ¬(c = sep)) :
    goSplit sep s = [s] := by
  induction s with
  | nil => rfl
  | cons c rest ih =>
    have hc := h c (List.mem_cons_self _ _)
    have ih2 := ih (fun x hx => h x (List.mem_cons_of_mem _ hx))
    simp [goSplit, hc, ih2]

theorem goSplit_append (sep : Char) (l r : Str) (hl : ∀ c ∈ l, ¬(c = sep)) :
    goSplit sep (l ++ sep :: r) = l :: goSplit sep r := by
  induction l with
  | nil => simp [goSplit]
  | cons a as ih =>
    have ha := hl a (List.mem_cons_self _ _)
    have ih2 := ih (fun c hc => hl c (List.mem_cons_of_mem _ hc))
    simp [goSplit, ha, ih2]

theorem segChars_no_colon_comma (a : Str) (ha : segOK a = true) :
    ∀ x ∈ a, ¬(x = ':') ∧ ¬(x = ',') := by
  intro x hx
  obtain ⟨h1, h2, _, _⟩ := segChar_facts x (segOK_chars a ha x hx)
  exact ⟨h1, h2⟩

theorem applyMatch_token (now : Clock) (d : Str) (u a b c : Str)
    (hok : chunkOK (.tok u a b c) = true) :
    applyMatch now d (renderChunk (.tok u a b c), tokInner u a b c)
      = if u = lit "date" then
          stringsReplaceAll d (renderChunk (.tok u a b c))
            (formatDateTriple (addDate now (parseIntGo a).1 (parseIntGo b).1 (parseIntGo c).1))
        else if u = lit "time" then
          stringsReplaceAll d (renderChunk (.tok u a b c))
            (formatTimeAdd now (parseIntGo a).1 (parseIntGo b).1 (parseIntGo c).1)
        else d := by
  have hok' := hok
  simp only [chunkOK, Bool.and_eq_true] at hok'
  obtain ⟨⟨⟨⟨_, hw⟩, ha⟩, hb⟩, hc⟩ := hok'
  have hsplit1 : goSplit ':' (tokInner u a b c) = [u, a ++ ',' :: (b ++ ',' :: c)] := by
    have h1 : goSplit ':' (u ++ ':' :: (a ++ ',' :: (b ++ ',' :: c)))
        = u :: goSplit ':' (a ++ ',' :: (b ++ ',' :: c)) :=
      goSplit_append ':' u _ (fun x hx =>
        (isWordChar_facts x (List.all_eq_true.mp hw x hx)).1)
    have h2 : goSplit ':' (a ++ ',' :: (b ++ ',' :: c)) = [a ++ ',' :: (b ++ ',' :: c)] := by
      refine goSplit_no_sep ':' _ (fun x hx => ?_)
      simp only [List.mem_append, List.mem_cons] at hx
      rcases hx with hx | hx | hx | hx | hx
      · exact (segChars_no_colon_comma a ha x hx).1
      · subst hx; decide
      · exact (segChars_no_colon_comma b hb x hx).1
      · subst hx; decide
      · exact (segChars_no_colon_comma c hc x hx).1
    rw [show tokInner u a b c = u ++ ':' :: (a ++ ',' :: (b ++ ',' :: c)) from rfl, h1, h2]
  have hsplit2 : goSplit ',' (a ++ ',' :: (b ++ ',' :: c)) = [a, b, c] := by
    rw [goSplit_append ',' a _ (fun x hx => (segChars_no_colon_comma a ha x hx).2),
      goSplit_append ',' b _ (fun x hx => (segChars_no_colon_comma b hb x hx).2),
      goSplit_no_sep ',' c (fun x hx => (segChars_no_colon_comma c hc x hx).2)]
  unfold applyMatch
  simp only [hsplit1, hsplit2]

/-! ## The formatted replacements contain no braces -/

theorem digitChar_no_braces (m : Nat) :
    ¬(digitChar m = lbrace) ∧ ¬(digitChar m = rbrace) := by
  unfold digitChar
  split <;> exact ⟨by decide, by decide⟩

theorem natDigitsAux_no_braces : ∀ (fuel n : Nat), ∀ x ∈ natDigitsAux fuel n,
    ¬(x = lbrace) ∧ ¬(x = rbrace) := by
  intro fuel
  induction fuel with
  | zero => intro n x hx; simp [natDigitsAux] at hx
  | succ fuel ih =>
    intro n x hx
    simp only [natDigitsAux] at hx
    split at hx
    · simp only [List.mem_singleton] at hx
      subst hx
      exact digitChar_no_braces n
    · rcases List.mem_append.mp hx with hx | hx
      · exact ih (n / 10) x hx
      · simp only [List.mem_singleton] at hx
        subst hx
        exact digitChar_no_braces (n % 10)

theorem padNat_no_braces (w n : Nat) : ∀ x ∈ padNat w n, ¬(x = lbrace) ∧ ¬(x = rbrace) := by
  intro x hx
  simp only [padNat] at hx
  rcases List.mem_append.mp hx with hx | hx
  · have := List.eq_of_mem_replicate hx
    subst this
    exact ⟨by decide, by decide⟩
  · exact natDigitsAux_no_braces _ _ x hx

theorem padIntSigned_no_braces (w : Nat) (v : Int) :
    ∀ x ∈ padIntSigned w v, ¬(x = lbrace) ∧ ¬(x = rbrace) := by
  intro x hx
  simp only [padIntSigned] at hx
  split at hx
  · rcases List.mem_cons.mp hx with rfl | hx
    · exact ⟨by decide, by decide⟩
    · exact padNat_no_braces _ _ x hx
  · exact padNat_no_braces _ _ x hx

theorem formatDate_no_braces (y m d : Int) :
    ∀ x ∈ formatDate y m d, ¬(x = lbrace) ∧ ¬(x = rbrace) := by
  intro x hx
  simp only [formatDate, List.mem_append, List.mem_cons] at hx
  rcases hx with hx | hx | hx | hx | hx
  · exact padIntSigned_no_braces _ _ x hx
  · subst hx; exact ⟨by decide, by decide⟩
  · exact padNat_no_braces _ _ x hx
  · subst hx; exact ⟨by decide, by decide⟩
  · exact padNat_no_braces _ _ x hx

theorem formatDateTriple_no_braces (t : Int × Int × Int) :
    ∀ x ∈ formatDateTriple t, ¬(x = lbrace) ∧ ¬(x = rbrace) :=
  formatDate_no_braces t.1 t.2.1 t.2.2

theorem formatTimeAdd_no_braces (c : Clock) (hs ms ss : Int) :
    ∀ x ∈ formatTimeAdd c hs ms ss, ¬(x = lbrace) ∧ ¬(x = rbrace) := by
  intro x hx
  simp only [formatTimeAdd, List.mem_append, List.mem_cons] at hx
  rcases hx with hx | hx | hx | hx | hx
  · exact padNat_no_braces _ _ x hx
  · subst hx; exact ⟨by decide, by decide⟩
  · exact padNat_no_braces _ _ x hx
  · subst hx; exact ⟨by decide, by decide⟩
  · exact padNat_no_braces _ _ x hx

/-- The shape hypothesis on already-processed pieces: brace-free, or a
well-formed token text that does not recur among the remaining tokens. -/
def DoneOK (remaining : List Chunk) (x : Str) : Prop :=
  (∀ ch2 ∈ x, ¬(ch2 = lbrace)) ∨
    (∃ u2 a2 b2 c2, chunkOK (.tok u2 a2 b2 c2) = true
      ∧ x = renderChunk (.tok u2 a2 b2 c2) ∧ ¬(x ∈ tokTexts remaining))

theorem fold_expand (now : Clock) :
    ∀ (remaining : List Chunk) (done : List Str),
      (∀ ch ∈ remaining, chunkOK ch = true) →
      distinctB (tokTexts remaining) = true →
      (∀ x ∈ done, DoneOK remaining x) →
      (tokMatches remaining).foldl (applyMatch now)
          (done.flatten ++ (remaining.map renderChunk).flatten)
        = done.flatten ++ (remaining.map (expandChunk now)).flatten := by
  intro remaining
  induction remaining with
  | nil => intro done _ _ _; rfl
  | cons ch rest ih =>
    intro done hok hdist hdone
    have hokrest : ∀ ch2 ∈ rest, chunkOK ch2 = true :=
      fun ch2 h2 => hok ch2 (List.mem_cons_of_mem _ h2)
    cases ch with
    | lit s =>
      have hok1 : braceFreeB s = true := hok _ (List.mem_cons_self _ _)
      have ht : tokTexts (Chunk.lit s :: rest) = tokTexts rest := rfl
      have hdone2 : ∀ x ∈ done ++ [s], DoneOK rest x := by
        intro x hx
        rcases List.mem_append.mp hx with hx | hx
        · rcases hdone x hx with h | ⟨u2, a2, b2, c2, h1, h2, h3⟩
          · exact Or.inl h
          · exact Or.inr ⟨u2, a2, b2, c2, h1, h2, ht ▸ h3⟩
        · simp only [List.mem_singleton] at hx
          subst hx
          exact Or.inl (braceFreeB_no_lbrace x hok1)
      have key := ih (done ++ [s]) hokrest (ht ▸ hdist) hdone2
      have e1 : (done ++ [s]).flatten = done.flatten ++ s := by simp
      rw [e1] at key
      show (tokMatches rest).foldl (applyMatch now)
          (done.flatten ++ (s ++ (rest.map renderChunk).flatten))
        = done.flatten ++ (s ++ (rest.map (expandChunk now)).flatten)
      rw [← List.append_assoc, ← List.append_assoc]
      exact key
    | tok u a b c =>
      have hok1 : chunkOK (.tok u a b c) = true := hok _ (List.mem_cons_self _ _)
      have ht : tokTexts (Chunk.tok u a b c :: rest)
          = renderChunk (.tok u a b c) :: tokTexts rest := rfl
      have hdist2 := hdist
      rw [ht] at hdist2
      simp only [distinctB, Bool.and_eq_true] at hdist2
      obtain ⟨hall, hdrest⟩ := hdist2
      have hneq : ∀ y ∈ tokTexts rest, ¬(renderChunk (.tok u a b c) = y) := by
        intro y hy
        have := List.all_eq_true.mp hall y hy
        simpa using this
      have hpieces : ∀ x ∈ done ++ renderChunk (.tok u a b c) :: rest.map renderChunk,
          PieceOK x := by
        intro x hx
        rcases List.mem_append.mp hx with hx | hx
        · rcases hdone x hx with h | ⟨u2, a2, b2, c2, h1, h2, _⟩
          · exact Or.inl h
          · exact Or.inr ⟨u2, a2, b2, c2, h1, h2⟩
        · rcases List.mem_cons.mp hx with rfl | hx
          · exact Or.inr ⟨u, a, b, c, hok1, rfl⟩
          · obtain ⟨ch2, hch2, rfl⟩ := List.mem_map.mp hx
            cases ch2 with
            | lit s2 => exact Or.inl (braceFreeB_no_lbrace s2 (hokrest _ hch2))
            | tok u2 a2 b2 c2 => exact Or.inr ⟨u2, a2, b2, c2, hokrest _ hch2, rfl⟩
      have hmap : ∀ repl : Str,
          (done ++ renderChunk (.tok u a b c) :: rest.map renderChunk).map
              (fun x => if x = renderChunk (.tok u a b c) then repl else x)
            = done ++ repl :: rest.map renderChunk := by
        intro repl
        rw [List.map_append, List.map_cons, if_pos rfl]
        have hdmap : done.map (fun x => if x = renderChunk (.tok u a b c) then repl else x)
            = done := by
          refine (List.map_congr_left fun x hx => ?_).trans (List.map_id done)
          rcases hdone x hx with h | ⟨u2, a2, b2, c2, h1, h2, h3⟩
          · refine if_neg (fun he => ?_)
            have hm2 : lbrace ∈ x := by
              rw [he]
              simp [renderChunk]
            exact h lbrace hm2 rfl
          · refine if_neg (fun he => ?_)
            exact h3 (he ▸ (ht ▸ List.mem_cons_self _ _ : _ ∈ tokTexts (Chunk.tok u a b c :: rest)))
        have hrmap : (rest.map renderChunk).map
              (fun x => if x = renderChunk (.tok u a b c) then repl else x)
            = rest.map renderChunk := by
          refine (List.map_congr_left fun y hy => ?_).trans (List.map_id _)
          obtain ⟨ch2, hch2, rfl⟩ := List.mem_map.mp hy
          cases ch2 with
          | lit s2 =>
            refine if_neg (fun he => ?_)
            have hm2 : lbrace ∈ renderChunk (Chunk.lit s2) := by
              rw [he]
              simp [renderChunk]
            exact braceFreeB_no_lbrace s2 (hokrest _ hch2) lbrace hm2 rfl
          | tok u2 a2 b2 c2 =>
            refine if_neg (fun he => ?_)
            exact hneq (renderChunk (.tok u2 a2 b2 c2))
              (List.mem_filterMap.mpr ⟨Chunk.tok u2 a2 b2 c2, hch2, rfl⟩) he.symm
        rw [hdmap, hrmap]
      have hdoneW : ∀ (extra : Str), DoneOK rest extra →
          ∀ x ∈ done ++ [extra], DoneOK rest x := by
        intro extra hextra x hx
        rcases List.mem_append.mp hx with hx | hx
        · rcases hdone x hx with h | ⟨u2, a2, b2, c2, h1, h2, h3⟩
          · exact Or.inl h
          · refine Or.inr ⟨u2, a2, b2, c2, h1, h2, fun hmem => ?_⟩
            exact h3 (ht ▸ List.mem_cons_of_mem _ hmem)
        · simp only [List.mem_singleton] at hx
          subst hx
          exact hextra
      have hdata : done.flatten ++ (renderChunk (.tok u a b c) ++ (rest.map renderChunk).flatten)
          = (done ++ renderChunk (.tok u a b c) :: rest.map renderChunk).flatten := by
        simp [List.flatten_append, List.flatten_cons]
      have hstep : ∀ repl : Str,
          stringsReplaceAll
              (done.flatten ++ (renderChunk (.tok u a b c) ++ (rest.map renderChunk).flatten))
              (renderChunk (.tok u a b c)) repl
            = (done ++ [repl]).flatten ++ (rest.map renderChunk).flatten := by
        intro repl
        rw [hdata, replaceAll_chunks u a b c repl hok1 _ hpieces, hmap repl]
        simp [List.flatten_append, List.flatten_cons]
      show (tokMatches (Chunk.tok u a b c :: rest)).foldl (applyMatch now)
          (done.flatten ++ (renderChunk (.tok u a b c) ++ (rest.map renderChunk).flatten))
        = done.flatten ++ (expandChunk now (.tok u a b c) ++ (rest.map (expandChunk now)).flatten)
      rw [show tokMatches (Chunk.tok u a b c :: rest)
          = (renderChunk (.tok u a b c), tokInner u a b c) :: tokMatches rest from rfl,
        List.foldl_cons, applyMatch_token now _ u a b c hok1]
      by_cases hud : u = lit "date"
      · rw [if_pos hud, hstep _]
        have key := ih (done ++ [formatDateTriple (addDate now (parseIntGo a).1 (parseIntGo b).1
            (parseIntGo c).1)]) hokrest hdrest
          (hdoneW _ (Or.inl (fun ch2 hch2 => (formatDateTriple_no_braces _ ch2 hch2).1)))
        rw [key]
        have e2 : (done ++ [formatDateTriple (addDate now (parseIntGo a).1 (parseIntGo b).1
            (parseIntGo c).1)]).flatten
            = done.flatten ++ formatDateTriple (addDate now (parseIntGo a).1 (parseIntGo b).1
              (parseIntGo c).1) := by simp
        rw [e2, expandChunk, if_pos hud, List.append_assoc]
      · by_cases hut : u = lit "time"
        · rw [if_neg hud, if_pos hut, hstep _]
          have key := ih (done ++ [formatTimeAdd now (parseIntGo a).1 (parseIntGo b).1
              (parseIntGo c).1]) hokrest hdrest
            (hdoneW _ (Or.inl (fun ch2 hch2 => (formatTimeAdd_no_braces _ _ _ _ ch2 hch2).1)))
          rw [key]
          have e2 : (done ++ [formatTimeAdd now (parseIntGo a).1 (parseIntGo b).1
              (parseIntGo c).1]).flatten
              = done.flatten ++ formatTimeAdd now (parseIntGo a).1 (parseIntGo b).1
                (parseIntGo c).1 := by simp
          rw [e2, expandChunk, if_neg hud, if_pos hut, List.append_assoc]
        · rw [if_neg hud, if_neg hut]
          have hpatok : DoneOK rest (renderChunk (.tok u a b c)) :=
            Or.inr ⟨u, a, b, c, hok1, rfl, fun hmem => hneq _ hmem rfl⟩
          have key := ih (done ++ [renderChunk (.tok u a b c)]) hokrest hdrest
            (hdoneW _ hpatok)
          have e2 : (done ++ [renderChunk (.tok u a b c)]).flatten
              = done.flatten ++ renderChunk (.tok u a b c) := by simp
          rw [e2] at key
          rw [show done.flatten ++ (renderChunk (.tok u a b c) ++ (rest.map renderChunk).flatten)
              = (done.flatten ++ renderChunk (.tok u a b c)) ++ (rest.map renderChunk).flatten
              from by rw [List.append_assoc], key, expandChunk, if_neg hud, if_neg hut,
            List.append_assoc]

/-- The int64 two's-complement wrap is the identity on the int64 range. -/
theorem wrapSigned64_eq_self (v : Int) (h1 : -(2 ^ 63) ≤ v) (h2 : v < 2 ^ 63) :
    wrap64 v = v := by
  show (if v.emod (2 ^ 64) < 2 ^ (64 - 1) then v.emod (2 ^ 64) else v.emod (2 ^ 64) - 2 ^ 64) = v
  have hdiv : 2 ^ 64 * (v.ediv (2 ^ 64)) + v.emod (2 ^ 64) = v := Int.ediv_add_emod v (2 ^ 64)
  have hmod : 0 ≤ v.emod (2 ^ 64) := Int.emod_nonneg v (by norm_num)
  have hlt : v.emod (2 ^ 64) < 2 ^ 64 := Int.emod_lt_of_pos v (by norm_num)
  split <;> omega

/-- For offsets of at most a million in each component, the token duration
stays inside int64 nanoseconds and equals the exact total. -/
theorem goDuration_small (hs ms ss : Int) (h1 : hs.natAbs ≤ 1000000)
    (h2 : ms.natAbs ≤ 1000000) (h3 : ss.natAbs ≤ 1000000) :
    goDuration hs ms ss = (hs * 3600 + ms * 60 + ss) * 1000000000 := by
  show wrap64 (wrap64 (wrap64 (hs * 3600000000000) + wrap64 (ms * 60000000000))
      + wrap64 (ss * 1000000000)) = _
  rw [wrapSigned64_eq_self (hs * 3600000000000) (by omega) (by omega),
    wrapSigned64_eq_self (ms * 60000000000) (by omega) (by omega),
    wrapSigned64_eq_self (ss * 1000000000) (by omega) (by omega),
    wrapSigned64_eq_self (hs * 3600000000000 + ms * 60000000000) (by omega) (by omega),
    wrapSigned64_eq_self (hs * 3600000000000 + ms * 60000000000 + ss * 1000000000)
      (by omega) (by omega)]
  ring

/-- In the same range the engine's time rendering is the exact advance. -/
theorem formatTimeAdd_small (c : Clock) (hs ms ss : Int) (h1 : hs.natAbs ≤ 1000000)
    (h2 : ms.natAbs ≤ 1000000) (h3 : ss.natAbs ≤ 1000000) :
    formatTimeAdd c hs ms ss = advanceTimeSpec c hs ms ss := by
  unfold formatTimeAdd advanceTimeSpec
  rw [goDuration_small hs ms ss h1 h2 h3,
    Int.mul_fdiv_cancel _ (by norm_num : (1000000000 : Int) ≠ 0)]

/-- C6 (amended): placeholder expansion replaces every well-formed `date`
token with the date the engine's wrapped AddDate arithmetic yields from the
three offsets (formatted YYYY-MM-DD) and every well-formed `time` token
with the clock shifted by the token's int64-nanosecond Duration (formatted
HH:MM:SS); unit tags other than date/time are left verbatim.  Stated over
any decomposition of the data into brace-free literals and well-formed
tokens (with distinct token texts; a duplicated token is exercised
concretely below).  For time offsets of at most a million per component the
Duration shift is exactly "advanced by H hours, M minutes, S seconds", and
the engine's date arithmetic agrees with the exact civil advance at the
scenario's offsets and across month normalization (beyond the int64/uint64
range both wrap, see the counterexample).  Moreover Scenario E holds on the
fixed clock 2024-03-15; a string with no token text at all is returned
unchanged; multiple tokens (including duplicates) are each expanded; and a
malformed token (the regexp admits no plus sign) stays verbatim. -/
theorem c6_placeholder_expansion (now : Clock) (chunks : List Chunk)
    (hok : ∀ ch ∈ chunks, chunkOK ch = true)
    (hdist : distinctB (tokTexts chunks) = true) :
    parseDateTimeString now (chunks.map renderChunk).flatten
      = (chunks.map (expandChunk now)).flatten ∧
    parseDateTimeString clockE (lit "built on \x7b\x7bdate:0,0,-1\x7d\x7d")
      = lit "built on 2024-03-14" ∧
    (∀ s : Str, (∀ ch2 ∈ s, ¬(ch2 = lbrace)) → parseDateTimeString now s = s) ∧
    parseDateTimeString clockE
        (lit "\x7b\x7bdate:0,0,1\x7d\x7d and \x7b\x7bdate:0,0,1\x7d\x7d")
      = lit "2024-03-16 and 2024-03-16" ∧
    parseDateTimeString clockE (lit "a\x7b\x7bdate:+1,0,0\x7d\x7db")
      = lit "a\x7b\x7bdate:+1,0,0\x7d\x7db" ∧
    (∀ (c : Clock) (hs ms2 ss : Int), hs.natAbs ≤ 1000000 → ms2.natAbs ≤ 1000000 →
      ss.natAbs ≤ 1000000 → formatTimeAdd c hs ms2 ss = advanceTimeSpec c hs ms2 ss) ∧
    addDate clockE 0 0 (-1) = advanceDateSpec clockE 0 0 (-1) ∧
    addDate ⟨2024, 1, 31, 0, 0, 0⟩ 0 1 0 = advanceDateSpec ⟨2024, 1, 31, 0, 0, 0⟩ 0 1 0 := by
  refine ⟨?_, rfl, ?_, rfl, rfl,
    fun c hs ms2 ss hb1 hb2 hb3 => formatTimeAdd_small c hs ms2 ss hb1 hb2 hb3,
    by decide, by decide⟩
  · unfold parseDateTimeString
    rw [findMatches_chunks chunks hok]
    have h := fold_expand now chunks [] hok hdist (fun x hx => absurd hx (List.not_mem_nil x))
    simpa using h
  · intro s hs
    unfold parseDateTimeString
    rw [findMatches_no_lbrace s hs]
    rfl

/-- Witness for C6: the general expansion statement applied to the chunks of
Scenario E ("built on " followed by a date token with offsets 0,0,-1), and
the in-range time conjunct applied at offsets 1,2,3. -/
theorem c6_placeholder_expansion_witness :
    (parseDateTimeString clockE
        (([Chunk.lit (lit "built on "),
           Chunk.tok (lit "date") (lit "0") (lit "0") (lit "-1")]).map renderChunk).flatten
      = (([Chunk.lit (lit "built on "),
           Chunk.tok (lit "date") (lit "0") (lit "0") (lit "-1")]).map (expandChunk clockE)).flatten) ∧
    formatTimeAdd clockE 1 2 3 = advanceTimeSpec clockE 1 2 3 :=
  ⟨(c6_placeholder_expansion clockE
      [Chunk.lit (lit "built on "), Chunk.tok (lit "date") (lit "0") (lit "0") (lit "-1")]
      (by decide) (by decide)).1,
   (c6_placeholder_expansion clockE [] (by decide) (by decide)).2.2.2.2.2.1 clockE 1 2 3
      (by decide) (by decide) (by decide)⟩

/-- C6, counterexample to the claim as stated: on the fixed 2024-03-15
midnight clock the time token with a 3,000,000-hour offset is not replaced
by the current time advanced by 3,000,000 hours — that advance is a
multiple of 24 h, so the claimed rendering is 00:00:00 — because the
engine multiplies the offset into an int64-nanosecond time.Duration, which
wraps to about -7.65e18 ns and prints 00:25:26.  A date token with a
10^18-year offset likewise wraps through time.Date's uint64 epoch
arithmetic and prints a different date than the exact civil advance. -/
theorem c6_time_wrap_counterexample :
    parseDateTimeString clockE
        (renderChunk (.tok (lit "time") (lit "3000000") (lit "0") (lit "0")))
      = lit "00:25:26" ∧
    advanceTimeSpec clockE 3000000 0 0 = lit "00:00:00" ∧
    ¬(parseDateTimeString clockE
        (renderChunk (.tok (lit "time") (lit "3000000") (lit "0") (lit "0")))
      = advanceTimeSpec clockE 3000000 0 0) ∧
    ¬(parseDateTimeString clockE
        (renderChunk (.tok (lit "date") (lit "999999999999999999") (lit "0") (lit "0")))
      = formatDateTriple (advanceDateSpec clockE 999999999999999999 0 0)) := by
  refine ⟨by decide, by decide, by decide, by decide⟩

/-- C8: the token recognizer accepts an empty offset segment (the digit run
in the pattern may be empty): strconv.ParseInt on the empty segment returns
0 with an error that the loop discards, so the segment contributes a zero
offset and the token is still expanded with the remaining offsets applied
(here `date:,,1` advances the date by one day). -/
theorem c8_empty_segment_zero :
    parseIntGo [] = (0, false) ∧
    findMatches (renderChunk (.tok (lit "date") [] [] (lit "1")))
      = [(renderChunk (.tok (lit "date") [] [] (lit "1")),
          tokInner (lit "date") [] [] (lit "1"))] ∧
    (∀ now : Clock,
      parseDateTimeString now (renderChunk (.tok (lit "date") [] [] (lit "1")))
        = formatDateTriple (addDate now 0 0 1)) := by
  refine ⟨rfl, rfl, fun now => ?_⟩
  unfold parseDateTimeString
  rw [show findMatches (renderChunk (.tok (lit "date") [] [] (lit "1")))
      = [(renderChunk (.tok (lit "date") [] [] (lit "1")),
          tokInner (lit "date") [] [] (lit "1"))] from rfl,
    List.foldl_cons, List.foldl_nil,
    applyMatch_token now _ (lit "date") [] [] (lit "1") (by decide)]
  simp only [eq_self_iff_true, if_true]
  rw [show (parseIntGo ([] : Str)).1 = 0 from rfl,
    show (parseIntGo (lit "1")).1 = 1 from rfl,
    stringsReplaceAll_self _ _ (by decide)]

end Cfg
